import Mathlib

/-!
# Verification of the `bq` binary-query expression language

This file gives a shallow embedding, in Lean 4, of the core of the `bq`
tool (repository `cmj0121/bq`): the tokenizer, the recursive-descent
expression parser, the binary decode path (`Expr.Read` /
`FormatCode.decode` / `FormatCode.decodeArray`), and the AST evaluation
protocol (`Node.Eval` over format, pipe and object nodes).

The embedding follows `expr.go`. Byte sources (`io.Reader`) are modelled
as a `List Nat` of remaining bytes that is consumed strictly forward;
fallible operations return `Except String`. Go's machine integers are
modelled as `Nat`/`Int` with explicit two's-complement conversion at the
byte boundary.

A few parts of the repository exist only as tests in `expr_test.go`
(their implementation is not part of the evaluated sources): the
null-terminated string format code `s`, the encoder `encodeValue`, and
the `write(path)` pipeline stage.  Those definitions are modelled from
the specification and are marked `Modelled from the spec:` in their doc
comments.
-/

namespace BQ

/-- Byte order selector from `expr.go` (`NativeOrder`, `LittleEndian`,
`BigEndian`), chosen by the optional `<`/`>`/`@` prefix. -/
inductive ByteOrder where
  | nativeOrder
  | littleEndian
  | bigEndian
deriving DecidableEq, Repr

/-- A concrete `binary.ByteOrder` value (`binary.LittleEndian` or
`binary.BigEndian`); the codec functions receive one of these after the
`NativeOrder` case has been resolved by `Expr.binaryOrder`. -/
inductive BinOrder where
  | little
  | big
deriving DecidableEq, Repr

/-- Little-endian value of a byte list: `buf[0] + 256*buf[1] + …`, the
accumulation performed by `binary.LittleEndian.UintN`. -/
def leNat : List Nat → Nat
  | [] => 0
  | b :: rest => b + 256 * leNat rest

/-- `order.UintN(buf)` on the first bytes of `buf`: little-endian reads
the bytes least-significant first, big-endian most-significant first. -/
def ordNat (o : BinOrder) (buf : List Nat) : Nat :=
  match o with
  | .little => leNat buf
  | .big => leNat buf.reverse

/-- The `w` little-endian bytes of `n` (`binary.LittleEndian.PutUintN`). -/
def leBytes : Nat → Nat → List Nat
  | 0, _ => []
  | w + 1, n => n % 256 :: leBytes w (n / 256)

/-- `order.PutUintN`: the `w` bytes of `n` in the given byte order. -/
def ordBytes (o : BinOrder) (w : Nat) (n : Nat) : List Nat :=
  match o with
  | .little => leBytes w n
  | .big => (leBytes w n).reverse

/-- Go's conversion `intN(u)` of an unsigned `bits`-wide value to the
signed interpretation (two's complement). -/
def toSigned (bits : Nat) (n : Nat) : Int :=
  if n < 2 ^ (bits - 1) then (n : Int) else (n : Int) - 2 ^ bits

/-- Go's conversion `uintN(v)` of a signed value to its unsigned
`bits`-wide representation (two's complement). -/
def toUnsigned (bits : Nat) (v : Int) : Nat :=
  (v % (2 ^ bits : Nat)).toNat

/-- A single format specifier (`FormatCode` in `expr.go`): the code
character, its per-element byte width, signedness, and element count. -/
structure FormatCode where
  code : Char
  size : Nat
  signed : Bool
  count : Nat
deriving DecidableEq, Repr

/-- A parsed binary format expression (`Expr` in `expr.go`). -/
structure Expr where
  order : ByteOrder
  formats : List FormatCode
deriving DecidableEq, Repr

/-- The size/signedness table `formatCodeInfo` from `expr.go` (the
evaluated source has exactly the eight integer codes). -/
def formatCodeInfo : Char → Option (Nat × Bool)
  | 'b' => some (1, true)
  | 'B' => some (1, false)
  | 'h' => some (2, true)
  | 'H' => some (2, false)
  | 'i' => some (4, true)
  | 'I' => some (4, false)
  | 'q' => some (8, true)
  | 'Q' => some (8, false)
  | _ => none

/-- A runtime value (Go's `any` as produced by evaluation): the eight
integer scalar types, the eight typed slices produced by `decodeArray`,
a decoded string (`str`, kept as its byte list), an `Object`
(`obj`, the ordered name/value field list), and an ordered value
sequence (`seq`, Go's `[]any` as returned by `Expr.Read`). -/
inductive Value where
  | i8 (v : Int)
  | u8 (v : Nat)
  | i16 (v : Int)
  | u16 (v : Nat)
  | i32 (v : Int)
  | u32 (v : Nat)
  | i64 (v : Int)
  | u64 (v : Nat)
  | arrI8 (vs : List Int)
  | arrU8 (vs : List Nat)
  | arrI16 (vs : List Int)
  | arrU16 (vs : List Nat)
  | arrI32 (vs : List Int)
  | arrU32 (vs : List Nat)
  | arrI64 (vs : List Int)
  | arrU64 (vs : List Nat)
  | str (bytes : List Nat)
  | obj (fields : List (String × Value))
  | seq (elems : List Value)

/-- `Expr.binaryOrder`: resolve the expression's `ByteOrder` to a
concrete `binary.ByteOrder`; the machine's native endianness (detected
by `nativeEndian()` in the source) is passed in as `native`. -/
def Expr.binaryOrder (e : Expr) (native : BinOrder) : BinOrder :=
  match e.order with
  | .littleEndian => .little
  | .bigEndian => .big
  | .nativeOrder => native

/-- `io.ReadFull(r, buf)` over a list-of-bytes source: take exactly `n`
bytes or fail (a short read is an error, no partial values). -/
def readBytes (n : Nat) (input : List Nat) : Except String (List Nat × List Nat) :=
  if n ≤ input.length then .ok (input.take n, input.drop n)
  else .error "failed to read: unexpected EOF"

/-- `FormatCode.decode` from `expr.go`: interpret a buffer of exactly
`size` bytes per the code's width/signedness and the byte order. -/
def FormatCode.decode (fc : FormatCode) (buf : List Nat) (order : BinOrder) :
    Except String Value :=
  match fc.code with
  | 'b' => .ok (.i8 (toSigned 8 (buf.getD 0 0)))
  | 'B' => .ok (.u8 (buf.getD 0 0))
  | 'h' => .ok (.i16 (toSigned 16 (ordNat order (buf.take 2))))
  | 'H' => .ok (.u16 (ordNat order (buf.take 2)))
  | 'i' => .ok (.i32 (toSigned 32 (ordNat order (buf.take 4))))
  | 'I' => .ok (.u32 (ordNat order (buf.take 4)))
  | 'q' => .ok (.i64 (toSigned 64 (ordNat order (buf.take 8))))
  | 'Q' => .ok (.u64 (ordNat order (buf.take 8)))
  | _ => .error "unknown format code"

/-- The per-element slicing `buf[i*n:]` of `decodeArray`'s loop: the
`count` consecutive `n`-byte chunks of `buf`. -/
def sliceChunks : Nat → Nat → List Nat → List (List Nat)
  | 0, _, _ => []
  | c + 1, n, buf => buf.take n :: sliceChunks c n (buf.drop n)

/-- `FormatCode.decodeArray` from `expr.go`: read `size × count` bytes
and build the typed slice for the code, element by element in the given
byte order. -/
def FormatCode.decodeArray (fc : FormatCode) (order : BinOrder) (count : Nat)
    (input : List Nat) : Except String (Value × List Nat) := do
  let (buf, rest) ← readBytes (fc.size * count) input
  match fc.code with
  | 'b' => .ok (.arrI8 (buf.map (toSigned 8)), rest)
  | 'B' => .ok (.arrU8 buf, rest)
  | 'h' => .ok (.arrI16 ((sliceChunks count 2 buf).map fun c => toSigned 16 (ordNat order c)), rest)
  | 'H' => .ok (.arrU16 ((sliceChunks count 2 buf).map fun c => ordNat order c), rest)
  | 'i' => .ok (.arrI32 ((sliceChunks count 4 buf).map fun c => toSigned 32 (ordNat order c)), rest)
  | 'I' => .ok (.arrU32 ((sliceChunks count 4 buf).map fun c => ordNat order c), rest)
  | 'q' => .ok (.arrI64 ((sliceChunks count 8 buf).map fun c => toSigned 64 (ordNat order c)), rest)
  | 'Q' => .ok (.arrU64 ((sliceChunks count 8 buf).map fun c => ordNat order c), rest)
  | _ => .error "unknown format code"

/-- Modelled from the spec: a byte a decoded string may contain — "a
printable character or one of `\t`/`\n`; any other control byte is a
decode error" (§4.3).  Control bytes are those below `0x20` (other than
tab and newline) and `0x7F` (DEL). -/
def isStringByte (b : Nat) : Bool :=
  (0x20 ≤ b && b ≠ 0x7F) || b = 0x9 || b = 0xA

/-- Loop of `readNullTerminatedString`: consume bytes until a `0x00`
terminator (excluded from the value and consumed) or end-of-stream,
failing on any non-printable byte. -/
def readStrAux (acc : List Nat) : List Nat → Except String (List Nat × List Nat)
  | [] => .ok (acc.reverse, [])
  | b :: rest =>
    if b = 0 then .ok (acc.reverse, rest)
    else if isStringByte b then readStrAux (b :: acc) rest
    else .error "non-printable character in string"

/-- Modelled from the spec: `readNullTerminatedString`, the read path of
the string format code `s` (its implementation is absent from the
evaluated sources; only `expr_test.go` exercises it).  Per §4.3, bytes
are consumed until a `0x00` byte (excluded from the value) or
end-of-stream; every consumed byte must be printable or tab/newline; an
immediately-empty string is a decode error. -/
def readNullTerminatedString (input : List Nat) :
    Except String (List Nat × List Nat) := do
  let (s, rest) ← readStrAux [] input
  if s = [] then .error "empty string" else .ok (s, rest)

/-- The loop body of `Expr.Read`: process the format codes left to
right, threading the remaining byte source.  The `'s'` branch is
modelled from the spec (§4.3); the scalar (`count == 1`) and array
branches follow `expr.go` (including the `count == 0` backward
compatibility default). -/
def readFormats (order : BinOrder) : List FormatCode → List Nat →
    Except String (List Value × List Nat)
  | [], input => .ok ([], input)
  | fc :: rest, input =>
    if fc.code = 's' then do
      let (s, input') ← readNullTerminatedString input
      let (vs, input'') ← readFormats order rest input'
      .ok (.str s :: vs, input'')
    else
      let count := if fc.count = 0 then 1 else fc.count
      if count = 1 then do
        let (buf, input') ← readBytes fc.size input
        let v ← fc.decode buf order
        let (vs, input'') ← readFormats order rest input'
        .ok (v :: vs, input'')
      else do
        let (v, input') ← fc.decodeArray order count input
        let (vs, input'') ← readFormats order rest input'
        .ok (v :: vs, input'')

/-- `Expr.Read` from `expr.go`: decode the byte source per the format
codes, returning the ordered value sequence and the unconsumed rest of
the source.  `native` is the machine endianness used when the
expression's order is `NativeOrder`. -/
def Expr.Read (e : Expr) (native : BinOrder) (input : List Nat) :
    Except String (List Value × List Nat) :=
  readFormats (e.binaryOrder native) e.formats input

/-- A field definition inside an object literal (`FieldDef` in
`expr.go`): either an index field `NUMBER -> NAME` referencing a
position of the upstream value sequence, or a nested field
`NAME : { … }` carrying a child object (`Nested *ObjectNode`). The
index is an `Int` because Go stores it as an `int`. -/
inductive FieldDef where
  | index (idx : Int) (name : String)
  | nested (name : String) (child : List FieldDef)
deriving Repr

/-- An AST node (`Node` in `expr.go`).  `format`, `pipe` and `object`
follow the evaluated source (`FormatNode`, `PipeNode`, `ObjectNode`).
The `write` variant is modelled from the spec (§3, §4.5): a `WriteNode`
holds the target path, and the byte order captured from the originating
`Expr` which §4.4 requires for encoding. -/
inductive Node where
  | format (e : Expr)
  | pipe (left right : Node)
  | object (fields : List FieldDef)
  | write (path : String) (order : BinOrder)
deriving Repr

/-- The state an evaluation threads along: the remaining bytes of the
source (`io.Reader`), and the log of file writes performed
(`path × bytes`, appended in execution order by `write` stages). -/
structure EvalState where
  input : List Nat
  files : List (String × List Nat)
deriving Repr

/-- The field loop of `ObjectNode.Eval` from `expr.go`: each field is
produced from the full `values` sequence — an index field checks
`0 ≤ idx < len(values)` and looks up `values[idx]`; a nested field
recursively evaluates its child object against the same, full
`values`. -/
def evalFields : List FieldDef → List Value → Except String (List (String × Value))
  | [], _ => .ok []
  | .nested name child :: rest, values => do
    let nf ← evalFields child values
    let fs ← evalFields rest values
    .ok ((name, .obj nf) :: fs)
  | .index i name :: rest, values =>
    if h : i < 0 ∨ (values.length : Int) ≤ i then
      .error "field index out of range"
    else do
      let fs ← evalFields rest values
      .ok ((name, values.get ⟨i.toNat, by omega⟩) :: fs)

mutual

/-- Modelled from the spec: the encoder `encodeValue` (§4.4), whose
implementation is absent from the evaluated sources (only
`expr_test.go` exercises it).  Integer scalars serialize to their fixed
width in the given byte order; arrays element by element; strings as
their bytes plus a `0x00` terminator; an `Object` field by field in
declared order; an ordered value sequence element by element (scenario
E: a decoded sequence re-serializes to the original byte layout). -/
def encodeValue (v : Value) (order : BinOrder) : Except String (List Nat) :=
  match v with
  | .i8 n => .ok [toUnsigned 8 n]
  | .u8 n => .ok [n % 2 ^ 8]
  | .i16 n => .ok (ordBytes order 2 (toUnsigned 16 n))
  | .u16 n => .ok (ordBytes order 2 (n % 2 ^ 16))
  | .i32 n => .ok (ordBytes order 4 (toUnsigned 32 n))
  | .u32 n => .ok (ordBytes order 4 (n % 2 ^ 32))
  | .i64 n => .ok (ordBytes order 8 (toUnsigned 64 n))
  | .u64 n => .ok (ordBytes order 8 (n % 2 ^ 64))
  | .arrI8 vs => .ok (vs.map (toUnsigned 8))
  | .arrU8 vs => .ok (vs.map (· % 2 ^ 8))
  | .arrI16 vs => .ok ((vs.map fun n => ordBytes order 2 (toUnsigned 16 n)).flatten)
  | .arrU16 vs => .ok ((vs.map fun n => ordBytes order 2 (n % 2 ^ 16)).flatten)
  | .arrI32 vs => .ok ((vs.map fun n => ordBytes order 4 (toUnsigned 32 n)).flatten)
  | .arrU32 vs => .ok ((vs.map fun n => ordBytes order 4 (n % 2 ^ 32)).flatten)
  | .arrI64 vs => .ok ((vs.map fun n => ordBytes order 8 (toUnsigned 64 n)).flatten)
  | .arrU64 vs => .ok ((vs.map fun n => ordBytes order 8 (n % 2 ^ 64)).flatten)
  | .str bs => .ok (bs ++ [0])
  | .obj fields => encodeObjFields fields order
  | .seq vs => encodeSeq vs order

/-- Modelled from the spec: `Object` serialization (§4.4) — the fields
in declared order, recursing into nested values. -/
def encodeObjFields : List (String × Value) → BinOrder → Except String (List Nat)
  | [], _ => .ok []
  | (_, v) :: rest, order => do
    let b ← encodeValue v order
    let bs ← encodeObjFields rest order
    .ok (b ++ bs)

/-- Modelled from the spec: serialization of an ordered value sequence
(scenario E) — each element in order. -/
def encodeSeq : List Value → BinOrder → Except String (List Nat)
  | [], _ => .ok []
  | v :: rest, order => do
    let b ← encodeValue v order
    let bs ← encodeSeq rest order
    .ok (b ++ bs)

end

/-- `Node.Eval` from `expr.go`, dispatched on the node variant:
a `format` node decodes from the source (ignoring upstream values); a
`pipe` node evaluates its left side, requires an ordered value sequence,
and feeds it to the right side; an `object` node maps the upstream
values through its field definitions (ignoring the source).  The
`write` branch is modelled from the spec (§4.5): it encodes the
upstream value per §4.4 to the file at `path` and passes the value
through unchanged. -/
def evalNode (native : BinOrder) : Node → EvalState → List Value →
    Except String (Value × EvalState)
  | .format e, st, _ => do
    let (vs, rest) ← e.Read native st.input
    .ok (.seq vs, { st with input := rest })
  | .pipe l r, st, values => do
    let (lv, st') ← evalNode native l st values
    match lv with
    | .seq vs => evalNode native r st' vs
    | _ => .error "pipe left side must produce []any"
  | .object fields, st, values => do
    let fs ← evalFields fields values
    .ok (.obj fs, st)
  | .write path order, st, values => do
    let bs ← encodeValue (.seq values) order
    .ok (.seq values, { st with files := st.files ++ [(path, bs)] })

/-- Token kinds from `expr.go` (`TokenType`). -/
inductive TokenType where
  | eof
  | pipe
  | lbrace
  | rbrace
  | lparen
  | rparen
  | colon
  | arrow
  | comma
  | number
  | ident
  | format
  | order
deriving DecidableEq, Repr

/-- A lexical token: its kind and literal value (`Token` in `expr.go`;
the position field, used only for error messages, is dropped). -/
structure Token where
  type : TokenType
  value : List Char
deriving DecidableEq, Repr

/-- `isWhitespace` from `expr.go`. -/
def isWhitespace (ch : Char) : Bool :=
  ch = ' ' || ch = '\t' || ch = '\n' || ch = '\r'

/-- `isDigit` from `expr.go`. -/
def isDigit (ch : Char) : Bool :=
  '0' ≤ ch && ch ≤ '9'

/-- `isLetter` from `expr.go`. -/
def isLetter (ch : Char) : Bool :=
  ('a' ≤ ch && ch ≤ 'z') || ('A' ≤ ch && ch ≤ 'Z')

/-- `isAlphanumeric` from `expr.go` (letters, digits, underscore). -/
def isAlphanumeric (ch : Char) : Bool :=
  isLetter ch || isDigit ch || ch = '_'

/-- The character class scanned by `scanIdent` (letter, digit or
underscore). -/
def isIdentChar (ch : Char) : Bool :=
  isLetter ch || isDigit ch || ch = '_'

/-- `skipWhitespace` from `expr.go`: advance past whitespace.  The
tokenizer is modelled on its remaining input (the suffix from the
cursor position onward). -/
def skipWhitespace : List Char → List Char
  | [] => []
  | c :: rest => if isWhitespace c then skipWhitespace rest else c :: rest

/-- `Tokenizer.Next` from `expr.go`, over the remaining input: returns
the next token and the input remaining after it.  The format-code
versus identifier ambiguity is resolved exactly as in the source: a
format-set letter is a `format` token when it is last, or followed by a
non-alphanumeric character, another format-code letter, or a digit;
otherwise it starts an identifier. -/
def tokNext (input0 : List Char) : Except String (Token × List Char) :=
  match skipWhitespace input0 with
  | [] => .ok (⟨.eof, []⟩, [])
  | ch :: rest =>
    if ch = '|' then .ok (⟨.pipe, [ch]⟩, rest)
    else if ch = '{' then .ok (⟨.lbrace, [ch]⟩, rest)
    else if ch = '}' then .ok (⟨.rbrace, [ch]⟩, rest)
    else if ch = '(' then .ok (⟨.lparen, [ch]⟩, rest)
    else if ch = ')' then .ok (⟨.rparen, [ch]⟩, rest)
    else if ch = ':' then .ok (⟨.colon, [ch]⟩, rest)
    else if ch = ',' then .ok (⟨.comma, [ch]⟩, rest)
    else if ch = '<' || ch = '>' || ch = '@' then .ok (⟨.order, [ch]⟩, rest)
    else if ch = '-' && rest.headD ' ' = '>' && rest ≠ [] then
      .ok (⟨.arrow, ['-', '>']⟩, rest.tail)
    else if isDigit ch then
      .ok (⟨.number, ch :: rest.takeWhile isDigit⟩, rest.dropWhile isDigit)
    else if (formatCodeInfo ch).isSome &&
        (rest = [] ||
          (!isAlphanumeric (rest.headD ' ') ||
            (formatCodeInfo (rest.headD ' ')).isSome ||
            isDigit (rest.headD ' '))) then
      .ok (⟨.format, [ch]⟩, rest)
    else if isLetter ch || ch = '_' then
      .ok (⟨.ident, ch :: rest.takeWhile isIdentChar⟩, rest.dropWhile isIdentChar)
    else .error "unexpected character"

/-- Run the tokenizer to end of input (`fuel` bounds the number of
tokens; every non-EOF token consumes at least one character). -/
def tokenizeAux : Nat → List Char → Except String (List Token)
  | 0, _ => .error "tokenizer fuel exhausted"
  | fuel + 1, input => do
    let (tok, rest) ← tokNext input
    if tok.type = .eof then .ok [tok]
    else do
      let toks ← tokenizeAux fuel rest
      .ok (tok :: toks)

/-- All tokens of an input string, ending with the EOF token. -/
def tokenize (s : String) : Except String (List Token) :=
  tokenizeAux (s.toList.length + 1) s.toList

/-- The numeric value of a digit run — the accumulation performed
inside `strconv.Atoi`, before its range check. -/
def digitsToNat (ds : List Char) : Nat :=
  ds.foldl (fun acc c => acc * 10 + (c.toNat - '0'.toNat)) 0

/-- The largest value of Go's `int` (64-bit, `math.MaxInt64`):
`strconv.Atoi` fails with a range error beyond it. -/
def goMaxInt : Nat := 9223372036854775807

/-- `strconv.Atoi` on the digit run of a `number` token: the numeric
value when it fits in Go's `int`, a range error otherwise (sign and
syntax errors cannot arise — `number` tokens are nonempty digit
runs). -/
def atoi (ds : List Char) : Except String Nat :=
  if digitsToNat ds ≤ goMaxInt then .ok (digitsToNat ds)
  else .error "value out of range"

/-- Parser state (`Parser` in `expr.go`): the tokenizer's remaining
input and the current (most recently read) token. -/
structure PState where
  rest : List Char
  current : Token
deriving DecidableEq, Repr

/-- `Parser.advance`: read the next token into `current`. -/
def pAdvance (st : PState) : Except String PState := do
  let (tok, rest') ← tokNext st.rest
  .ok ⟨rest', tok⟩

/-- `Tokenizer.Peek` as used by the parser: the token after `current`,
without consuming it. -/
def pPeek (st : PState) : Except String Token := do
  let (tok, _) ← tokNext st.rest
  .ok tok

mutual

/-- `Parser.parsePipe` from `expr.go`: `Primary ('|' Object)?`.  Note
the evaluated source parses at most one pipe stage and requires it to
be an object literal. -/
def parsePipe : Nat → PState → Except String (Node × PState)
  | 0, _ => .error "parser fuel exhausted"
  | fuel + 1, st => do
    let (left, st) ← parsePrimary fuel st
    if st.current.type = .pipe then do
      let st ← pAdvance st
      let (right, st) ← parseObject fuel st
      .ok (.pipe left right, st)
    else
      .ok (left, st)

/-- `Parser.parsePrimary` from `expr.go`: a function call when the
current token is an identifier followed by `(`, else a format
expression. -/
def parsePrimary : Nat → PState → Except String (Node × PState)
  | 0, _ => .error "parser fuel exhausted"
  | fuel + 1, st => do
    if st.current.type = .ident then do
      let nextTok ← pPeek st
      if nextTok.type = .lparen then parseFunctionCall fuel st
      else parseFormatExpr fuel st
    else parseFormatExpr fuel st

/-- `Parser.parseFunctionCall` from `expr.go`:
`IDENT '(' FormatExpr ')'`; the only known function is `parse`, which
returns its argument as-is. -/
def parseFunctionCall : Nat → PState → Except String (Node × PState)
  | 0, _ => .error "parser fuel exhausted"
  | fuel + 1, st => do
    let funcName := st.current.value
    let st ← pAdvance st
    if st.current.type = .lparen then do
      let st ← pAdvance st
      let (arg, st) ← parseFormatExpr fuel st
      if st.current.type = .rparen then do
        let st ← pAdvance st
        if funcName = "parse".toList then .ok (arg, st)
        else .error "unknown function"
      else .error "expected close paren after function argument"
    else .error "expected open paren after function name"

/-- `Parser.parseFormatExpr` from `expr.go`:
`ByteOrder? (Count? FormatCode)+`. -/
def parseFormatExpr : Nat → PState → Except String (Node × PState)
  | 0, _ => .error "parser fuel exhausted"
  | fuel + 1, st => do
    let (order, st) ←
      if st.current.type = .order then do
        let ord : ByteOrder :=
          if st.current.value = ['<'] then .littleEndian
          else if st.current.value = ['>'] then .bigEndian
          else .nativeOrder
        let st ← pAdvance st
        pure (ord, st)
      else pure (ByteOrder.nativeOrder, st)
    let (formats, st) ← parseFormatLoop fuel st []
    if formats = [] then .error "expected format codes"
    else .ok (.format ⟨order, formats⟩, st)

/-- The format-code loop of `parseFormatExpr`: while the current token
is a format code or a number, read an optional count prefix (rejecting
`count < 1`, and requiring a format code right after a count) and the
format code, accumulating `FormatCode` entries. -/
def parseFormatLoop : Nat → PState → List FormatCode →
    Except String (List FormatCode × PState)
  | 0, _, _ => .error "parser fuel exhausted"
  | fuel + 1, st, acc => do
    if st.current.type = .format || st.current.type = .number then do
      let (count, st) ←
        if st.current.type = .number then
          match atoi st.current.value with
          | .error e => .error ("invalid count: " ++ e)
          | .ok c =>
            if c < 1 then .error "count must be at least 1"
            else do
              let st ← pAdvance st
              if st.current.type = .format then pure (c, st)
              else .error "expected format code after count"
        else pure (1, st)
      let code := st.current.value.headD ' '
      let info := (formatCodeInfo code).getD (0, false)
      let st ← pAdvance st
      parseFormatLoop fuel st (acc ++ [⟨code, info.1, info.2, count⟩])
    else .ok (acc, st)

/-- `Parser.parseObject` from `expr.go`: `'{' FieldList '}'`. -/
def parseObject : Nat → PState → Except String (Node × PState)
  | 0, _ => .error "parser fuel exhausted"
  | fuel + 1, st => do
    if st.current.type = .lbrace then do
      let st ← pAdvance st
      let (fields, st) ← parseFieldList fuel st
      if st.current.type = .rbrace then do
        let st ← pAdvance st
        .ok (.object fields, st)
      else .error "expected close brace"
    else .error "expected open brace"

/-- `Parser.parseFieldList` from `expr.go`:
`FieldItem (',' FieldItem)*`. -/
def parseFieldList : Nat → PState → Except String (List FieldDef × PState)
  | 0, _ => .error "parser fuel exhausted"
  | fuel + 1, st => do
    let (fd, st) ← parseFieldItem fuel st
    parseFieldListLoop fuel st [fd]

/-- The comma loop of `parseFieldList`. -/
def parseFieldListLoop : Nat → PState → List FieldDef →
    Except String (List FieldDef × PState)
  | 0, _, _ => .error "parser fuel exhausted"
  | fuel + 1, st, acc => do
    if st.current.type = .comma then do
      let st ← pAdvance st
      let (fd, st) ← parseFieldItem fuel st
      parseFieldListLoop fuel st (acc ++ [fd])
    else .ok (acc, st)

/-- `Parser.parseFieldItem` from `expr.go`: a nested field when the
current token is a name (identifier or format-code letter) followed by
`:`, else an index field. -/
def parseFieldItem : Nat → PState → Except String (FieldDef × PState)
  | 0, _ => .error "parser fuel exhausted"
  | fuel + 1, st => do
    if st.current.type = .ident || st.current.type = .format then do
      let nextTok ← pPeek st
      if nextTok.type = .colon then parseNestedField fuel st
      else parseIndexField fuel st
    else parseIndexField fuel st

/-- `Parser.parseIndexField` from `expr.go`:
`NUMBER '->' NAME` (the name may be an identifier or a format-code
letter). -/
def parseIndexField : Nat → PState → Except String (FieldDef × PState)
  | 0, _ => .error "parser fuel exhausted"
  | _fuel + 1, st => do
    if st.current.type = .number then do
      let index : Int ←
        match atoi st.current.value with
        | .error e => .error ("invalid index number: " ++ e)
        | .ok v => .ok ((v : Nat) : Int)
      let st ← pAdvance st
      if st.current.type = .arrow then do
        let st ← pAdvance st
        if st.current.type = .ident || st.current.type = .format then do
          let name := String.mk st.current.value
          let st ← pAdvance st
          .ok (.index index name, st)
        else .error "expected field name"
      else .error "expected arrow"
    else .error "expected index number"

/-- `Parser.parseNestedField` from `expr.go`: `NAME ':' Object`. -/
def parseNestedField : Nat → PState → Except String (FieldDef × PState)
  | 0, _ => .error "parser fuel exhausted"
  | fuel + 1, st => do
    if st.current.type = .ident || st.current.type = .format then do
      let name := String.mk st.current.value
      let st ← pAdvance st
      if st.current.type = .colon then do
        let st ← pAdvance st
        let (nestedNode, st) ← parseObject fuel st
        match nestedNode with
        | .object fds => .ok (.nested name fds, st)
        | _ => .error "expected object for nested field"
      else .error "expected colon"
    else .error "expected nested field name"

end

/-- `ParseExpression` from `expr.go`: create the parser, read the first
token, and parse the `Pipe` rule.  (As in the source, no end-of-input
check follows the parse: trailing tokens are ignored.)  The fuel
`2·|input| + 16` over-approximates the parser's recursion depth, every
step of which consumes input. -/
def ParseExpression (s : String) : Except String Node := do
  let input := s.toList
  let st ← pAdvance ⟨input, ⟨.eof, []⟩⟩
  let (node, _) ← parsePipe (2 * input.length + 16) st
  .ok node

/-- A count-and-code group of a canonical format expression: an
optional digit run (empty when absent) followed by a format-code
letter.  `F := OrderChar? (Count? Code)+` is the sub-language of
strings whose tokens form exactly one complete format expression. -/
structure FmtGroup where
  count : List Char
  code : Char

/-- The characters a group contributes to the expression string. -/
def FmtGroup.chars (g : FmtGroup) : List Char := g.count ++ [g.code]

/-- Wellformedness of a group: the count is all digits, and — when
present — at least `1` and within Go's `int` range (so `strconv.Atoi`
accepts it), and the code is a format-code letter. -/
def FmtGroup.WF (g : FmtGroup) : Prop :=
  (∀ c ∈ g.count, isDigit c = true) ∧
  (g.count ≠ [] → 1 ≤ digitsToNat g.count ∧ digitsToNat g.count ≤ goMaxInt) ∧
  (formatCodeInfo g.code).isSome = true

/-- The `FormatCode` a wellformed group parses to. -/
def FmtGroup.fc (g : FmtGroup) : FormatCode :=
  ⟨g.code, ((formatCodeInfo g.code).getD (0, false)).1,
    ((formatCodeInfo g.code).getD (0, false)).2,
    if g.count = [] then 1 else digitsToNat g.count⟩

/-- The characters of a canonical format expression: the optional
byte-order prefix followed by the groups. -/
def fmtChars (ord : Option Char) (gs : List FmtGroup) : List Char :=
  ord.toList ++ (gs.map FmtGroup.chars).flatten

/-- The byte order selected by an optional order prefix character. -/
def ordOf : Option Char → ByteOrder
  | some c => if c = '<' then .littleEndian else if c = '>' then .bigEndian else .nativeOrder
  | none => .nativeOrder

/-- Helper for the round-trip statements: the `Expr.order` value whose
`binaryOrder` resolution is the given fixed byte order (independently of
the machine endianness). -/
def exprForOrder : BinOrder → ByteOrder
  | .little => .littleEndian
  | .big => .bigEndian

/-- The field-evaluation of a single `FieldDef` against a value
sequence, as an independent function of the field and the full
sequence; used to state that `ObjectNode.Eval` treats every field
independently. -/
def evalFieldOne (fd : FieldDef) (values : List Value) :
    Except String (String × Value) :=
  match fd with
  | .index i name =>
    if h : i < 0 ∨ (values.length : Int) ≤ i then
      .error "field index out of range"
    else .ok (name, values.get ⟨i.toNat, by omega⟩)
  | .nested name child => (evalFields child values).map fun nf => (name, .obj nf)

/-- The independent per-field map: every field is produced by
`evalFieldOne` from the same, full `values` sequence, no state flowing
between siblings.  `ObjectNode.Eval`'s loop is proved equal to this. -/
def evalFieldsIndep (values : List Value) :
    List FieldDef → Except String (List (String × Value))
  | [] => .ok []
  | fd :: rest => do
    let f ← evalFieldOne fd values
    let fs ← evalFieldsIndep values rest
    .ok (f :: fs)

section Helpers

/-- Binding a success in the `Except` monad applies the continuation. -/
theorem except_bind_ok {α β : Type} (a : α) (f : α → Except String β) :
    ((Except.ok a : Except String α) >>= f) = f a := rfl

/-- Binding an error in the `Except` monad propagates the error. -/
theorem except_bind_error {α β : Type} (e : String) (f : α → Except String β) :
    ((Except.error e : Except String α) >>= f) = .error e := rfl

end Helpers

/-- C1: over any byte source starting `FF 01 02`, the parsed expression
`<bH` evaluates to the ordered value sequence `[int8(-1), uint16(513)]`:
each scalar code consumes exactly its fixed byte width (1 then 2 bytes,
leaving the rest of the source untouched) and interprets the bytes per
its width/signedness under the expression's little-endian order. -/
theorem C1_scalar_decode :
    ParseExpression "<bH" =
      .ok (.format ⟨.littleEndian, [⟨'b', 1, true, 1⟩, ⟨'H', 2, false, 1⟩]⟩) ∧
    ∀ (native : BinOrder) (rest : List Nat),
      Expr.Read ⟨.littleEndian, [⟨'b', 1, true, 1⟩, ⟨'H', 2, false, 1⟩]⟩ native
        (0xFF :: 0x01 :: 0x02 :: rest) = .ok ([.i8 (-1), .u16 513], rest) := by
  refine ⟨rfl, fun native rest => ?_⟩
  simp [Expr.Read, Expr.binaryOrder, readFormats, readBytes, FormatCode.decode,
    ordNat, leNat, toSigned, except_bind_ok]

/-- C8: `ObjectNode` evaluation hands every field — in particular every
nested child object — the same, full input value sequence: the field
loop is exactly an independent per-field map (`evalFieldOne` receives
the whole `values`, so sibling fields consume or scope away nothing),
and consequently a nested field referencing an index also referenced by
a sibling index field yields the identical decoded value in both
positions. -/
theorem C8_nested_same_values :
    (∀ (fields : List FieldDef) (values : List Value),
      evalFields fields values = evalFieldsIndep values fields) ∧
    ∀ (values : List Value) (i : Int) (n₁ n₂ n₃ : String)
      (h : 0 ≤ i ∧ i < (values.length : Int)),
      evalFields [.index i n₁, .nested n₂ [.index i n₃]] values =
        .ok [(n₁, values.get ⟨i.toNat, by omega⟩),
             (n₂, .obj [(n₃, values.get ⟨i.toNat, by omega⟩)])] := by
  constructor
  · intro fields values
    induction fields with
    | nil => simp [evalFields, evalFieldsIndep]
    | cons fd rest ih =>
      cases fd with
      | index i name =>
        by_cases h : i < 0 ∨ (values.length : Int) ≤ i
        · simp [evalFields, evalFieldsIndep, evalFieldOne, h, except_bind_error]
        · simp only [evalFields, evalFieldsIndep, evalFieldOne, dif_neg h, ih]
          cases evalFieldsIndep values rest <;>
            simp [except_bind_ok, except_bind_error]
      | nested name child =>
        simp only [evalFields, evalFieldsIndep, evalFieldOne, ih]
        cases evalFields child values <;>
          cases evalFieldsIndep values rest <;>
            simp [except_bind_ok, except_bind_error, Except.map]
  · intro values i n₁ n₂ n₃ h
    have hne : ¬(i < 0 ∨ (values.length : Int) ≤ i) := by omega
    simp [evalFields, hne, except_bind_ok]

/-- C9: during `ObjectNode` evaluation an index field with index `i`
makes the whole evaluation fail unless `0 ≤ i < len(values)`
(wherever the field occurs in the field list), and when the bound holds
the produced field value is exactly `values[i]`. -/
theorem C9_index_bounds :
    (∀ (fds₁ fds₂ : List FieldDef) (i : Int) (name : String)
      (values : List Value) (r : List (String × Value)),
      (i < 0 ∨ (values.length : Int) ≤ i) →
      evalFields (fds₁ ++ .index i name :: fds₂) values ≠ .ok r) ∧
    ∀ (fds : List FieldDef) (i : Int) (name : String) (values : List Value)
      (h : 0 ≤ i ∧ i < (values.length : Int)),
      evalFields (.index i name :: fds) values =
        (evalFields fds values).map
          fun fs => (name, values.get ⟨i.toNat, by omega⟩) :: fs := by
  constructor
  · intro fds₁ fds₂ i name values r hout
    induction fds₁ generalizing r with
    | nil => simp [evalFields, hout]
    | cons fd rest ih =>
      cases fd with
      | index j nm =>
        by_cases hj : j < 0 ∨ (values.length : Int) ≤ j
        · simp [evalFields, hj]
        · simp only [List.cons_append, evalFields, dif_neg hj]
          cases hrec : evalFields (rest ++ .index i name :: fds₂) values with
          | error e => simp [except_bind_error]
          | ok v => exact absurd hrec (ih v)
      | nested nm child =>
        simp only [List.cons_append, evalFields]
        cases evalFields child values with
        | error e => simp [except_bind_error]
        | ok nf =>
          simp only [except_bind_ok]
          cases hrec : evalFields (rest ++ .index i name :: fds₂) values with
          | error e => simp [except_bind_error]
          | ok v => exact absurd hrec (ih v)
  · intro fds i name values h
    have hne : ¬(i < 0 ∨ (values.length : Int) ≤ i) := by omega
    simp only [evalFields, dif_neg hne]
    cases evalFields fds values <;>
      simp [except_bind_ok, except_bind_error, Except.map]

/-- Witness for C8 at concrete inputs: both positions of the object
produced from `{0 -> a, n : {0 -> b}}` over a one-value sequence hold
that same value. -/
theorem C8_nested_same_values_witness :
    evalFields [.index 0 "a", .nested "n" [.index 0 "b"]] [.u8 7] =
      .ok [("a", .u8 7), ("n", .obj [("b", .u8 7)])] := by
  have h := C8_nested_same_values.2 [.u8 7] 0 "a" "n" "b" (by decide)
  simpa using h

/-- Witness for C9 at concrete inputs: index `2` over a two-value
sequence fails, and index `1` produces exactly the second value. -/
theorem C9_index_bounds_witness :
    evalFields [.index 2 "k"] [.u8 1, .u8 2] ≠ .ok [("k", .u8 2)] ∧
    evalFields [.index 1 "k"] [.u8 1, .u8 2] = .ok [("k", .u8 2)] := by
  constructor
  · exact C9_index_bounds.1 [] [] 2 "k" [.u8 1, .u8 2] [("k", .u8 2)] (by decide)
  · have h := C9_index_bounds.2 [] 1 "k" [.u8 1, .u8 2] (by decide)
    simpa [evalFields] using h

/-- C3: a pipe whose right-hand stage is `write(path)` encodes the
upstream value sequence to the file at `path` (appending one
create/truncate-and-write of the encoded bytes to the file log) and
returns the same value unchanged, so further pipe stages could follow;
in particular `<bH | write(path)` over the bytes `FF 01 02` writes
exactly those three bytes to `path` and passes `[int8(-1),
uint16(513)]` through. -/
theorem C3_write_passthrough :
    (∀ (native : BinOrder) (left : Node) (path : String) (order : BinOrder)
      (st st' : EvalState) (values vs : List Value) (bs : List Nat),
      evalNode native left st values = .ok (.seq vs, st') →
      encodeValue (.seq vs) order = .ok bs →
      evalNode native (.pipe left (.write path order)) st values =
        .ok (.seq vs, ⟨st'.input, st'.files ++ [(path, bs)]⟩)) ∧
    ∀ (native : BinOrder) (path : String) (rest : List Nat)
      (files : List (String × List Nat)),
      evalNode native
        (.pipe (.format ⟨.littleEndian, [⟨'b', 1, true, 1⟩, ⟨'H', 2, false, 1⟩]⟩)
          (.write path .little))
        ⟨0xFF :: 0x01 :: 0x02 :: rest, files⟩ [] =
        .ok (.seq [.i8 (-1), .u16 513],
          ⟨rest, files ++ [(path, [0xFF, 0x01, 0x02])]⟩) := by
  constructor
  · intro native left path order st st' values vs bs hleft henc
    simp [evalNode, hleft, henc, except_bind_ok]
  · intro native path rest files
    simp [evalNode, Expr.Read, Expr.binaryOrder, readFormats, readBytes,
      FormatCode.decode, ordNat, leNat, toSigned, except_bind_ok,
      encodeValue, encodeSeq, toUnsigned, ordBytes, leBytes]

/-- Witness for C3 at a concrete pipeline: a format stage over three
concrete bytes piped into `write("out.bin")` logs exactly the encoded
bytes and passes the decoded sequence through. -/
theorem C3_write_passthrough_witness :
    evalNode .little
      (.pipe (.format ⟨.littleEndian, [⟨'b', 1, true, 1⟩, ⟨'H', 2, false, 1⟩]⟩)
        (.write "out.bin" .little)) ⟨[0xFF, 0x01, 0x02, 0x09], []⟩ [] =
      .ok (.seq [.i8 (-1), .u16 513], ⟨[0x09], [("out.bin", [0xFF, 0x01, 0x02])]⟩) := by
  have h := C3_write_passthrough.1 .little
    (.format ⟨.littleEndian, [⟨'b', 1, true, 1⟩, ⟨'H', 2, false, 1⟩]⟩)
    "out.bin" .little ⟨[0xFF, 0x01, 0x02, 0x09], []⟩ ⟨[0x09], []⟩
    [] [.i8 (-1), .u16 513] [0xFF, 0x01, 0x02] (by rfl) (by rfl)
  simpa using h

section StringLemmas

/-- The zero byte is not an allowed string byte. -/
theorem isStringByte_zero : isStringByte 0 = false := rfl

/-- A run of allowed bytes followed by a `0x00` terminator is consumed
up to and including the terminator, the accumulator prepended. -/
theorem readStrAux_append_zero (pre : List Nat) :
    ∀ (acc rest : List Nat), (∀ b ∈ pre, isStringByte b = true) →
      readStrAux acc (pre ++ 0 :: rest) = .ok (acc.reverse ++ pre, rest) := by
  induction pre with
  | nil => intro acc rest _; simp [readStrAux]
  | cons b pre ih =>
    intro acc rest hall
    have hb : isStringByte b = true := hall b (by simp)
    have hb0 : b ≠ 0 := by
      intro h; rw [h, isStringByte_zero] at hb; exact Bool.false_ne_true hb
    simp only [List.cons_append, readStrAux, if_neg hb0, if_pos hb, List.append_eq]
    rw [ih (b :: acc) rest fun x hx => hall x (by simp [hx])]
    simp

/-- A run of allowed bytes with no terminator is consumed entirely
(end-of-stream also terminates the string). -/
theorem readStrAux_no_zero (bs : List Nat) :
    ∀ acc : List Nat, (∀ b ∈ bs, isStringByte b = true) →
      readStrAux acc bs = .ok (acc.reverse ++ bs, []) := by
  induction bs with
  | nil => intro acc _; simp [readStrAux]
  | cons b bs ih =>
    intro acc hall
    have hb : isStringByte b = true := hall b (by simp)
    have hb0 : b ≠ 0 := by
      intro h; rw [h, isStringByte_zero] at hb; exact Bool.false_ne_true hb
    simp only [readStrAux, if_neg hb0, if_pos hb, List.append_eq]
    rw [ih (b :: acc) fun x hx => hall x (by simp [hx])]
    simp

/-- Hitting a disallowed byte (other than the terminator) fails. -/
theorem readStrAux_bad (pre : List Nat) :
    ∀ (acc : List Nat) (b : Nat) (rest : List Nat),
      (∀ x ∈ pre, isStringByte x = true) → isStringByte b = false → b ≠ 0 →
      readStrAux acc (pre ++ b :: rest) =
        .error "non-printable character in string" := by
  induction pre with
  | nil =>
    intro acc b rest _ hbad hb0
    simp [readStrAux, if_neg hb0, hbad]
  | cons c pre ih =>
    intro acc b rest hall hbad hb0
    have hc : isStringByte c = true := hall c (by simp)
    have hc0 : c ≠ 0 := by
      intro h; rw [h, isStringByte_zero] at hc; exact Bool.false_ne_true hc
    simp only [List.cons_append, readStrAux, if_neg hc0, if_pos hc, List.append_eq]
    exact ih (c :: acc) b rest (fun x hx => hall x (by simp [hx])) hbad hb0

end StringLemmas

/-- C4: the format code `s` decodes by `readNullTerminatedString`,
which consumes bytes until a `0x00` byte (excluded from the value) or
end-of-stream; a consumed byte that is neither printable nor tab or
newline is a decode error; a `0x00` terminator as the very first byte
is a decode error; `s` over `"hi\0"` yields `"hi"` and over `"hi"`
with the stream ending also yields `"hi"`. -/
theorem C4_string_decode :
    (∀ (o : ByteOrder) (native : BinOrder) (input : List Nat),
      Expr.Read ⟨o, [⟨'s', 0, false, 1⟩]⟩ native input =
        (readNullTerminatedString input).map fun sr => ([.str sr.1], sr.2)) ∧
    (∀ bs : List Nat, readNullTerminatedString (0 :: bs) = .error "empty string") ∧
    (∀ pre rest : List Nat, pre ≠ [] → (∀ b ∈ pre, isStringByte b = true) →
      readNullTerminatedString (pre ++ 0 :: rest) = .ok (pre, rest)) ∧
    (∀ bs : List Nat, bs ≠ [] → (∀ b ∈ bs, isStringByte b = true) →
      readNullTerminatedString bs = .ok (bs, [])) ∧
    (∀ (pre : List Nat) (b : Nat) (rest : List Nat),
      (∀ x ∈ pre, isStringByte x = true) → isStringByte b = false → b ≠ 0 →
      ∃ e, readNullTerminatedString (pre ++ b :: rest) = .error e) ∧
    ∀ (o : ByteOrder) (native : BinOrder),
      Expr.Read ⟨o, [⟨'s', 0, false, 1⟩]⟩ native [0x68, 0x69, 0x00] =
          .ok ([.str [0x68, 0x69]], []) ∧
      Expr.Read ⟨o, [⟨'s', 0, false, 1⟩]⟩ native [0x68, 0x69] =
          .ok ([.str [0x68, 0x69]], []) := by
  refine ⟨?_, ?_, ?_, ?_, ?_, ?_⟩
  · intro o native input
    simp only [Expr.Read, readFormats]
    cases h : readNullTerminatedString input with
    | error e => simp [h, except_bind_error, Except.map]
    | ok sr => simp [h, except_bind_ok, readFormats, Except.map]
  · intro bs
    simp [readNullTerminatedString, readStrAux, except_bind_ok]
  · intro pre rest hne hall
    simp [readNullTerminatedString, readStrAux_append_zero pre [] rest hall,
      except_bind_ok, hne]
  · intro bs hne hall
    simp [readNullTerminatedString, readStrAux_no_zero bs [] hall,
      except_bind_ok, hne]
  · intro pre b rest hall hbad hb0
    exact ⟨"non-printable character in string", by
      simp [readNullTerminatedString, readStrAux_bad pre [] b rest hall hbad hb0,
        except_bind_error]⟩
  · intro o native
    constructor <;> rfl

/-- Witness for C4 at concrete inputs: `"hi\0"` decodes to `"hi"` with
the terminator consumed, and a bad byte after `"hi"` fails. -/
theorem C4_string_decode_witness :
    readNullTerminatedString [0x68, 0x69, 0x00, 0x07] = .ok ([0x68, 0x69], [0x07]) ∧
    ∃ e, readNullTerminatedString [0x68, 0x69, 0x01, 0x00] = .error e := by
  constructor
  · have h := C4_string_decode.2.2.1 [0x68, 0x69] [0x07] (by decide) (by decide)
    simpa using h
  · exact C4_string_decode.2.2.2.2.1 [0x68, 0x69] 0x01 [0x00] (by decide)
      (by decide) (by decide)

/-- Characterization of `Tokenizer.Next` on an input starting with a
format-set letter, given the (per-letter definitional) key equation:
the letter is a `format` token exactly under the lookahead condition,
and otherwise starts an identifier token. -/
theorem tokNext_fmt_class (c : Char) (rest : List Char)
    (hkey : tokNext (c :: rest) =
      if (decide (rest = []) || ((!isAlphanumeric (rest.headD ' ') ||
          (formatCodeInfo (rest.headD ' ')).isSome) || isDigit (rest.headD ' '))) = true
      then .ok (⟨.format, [c]⟩, rest)
      else .ok (⟨.ident, c :: rest.takeWhile isIdentChar⟩, rest.dropWhile isIdentChar)) :
    ((∃ r, tokNext (c :: rest) = .ok (⟨.format, [c]⟩, r)) ↔
      (rest = [] ∨ isAlphanumeric (rest.headD ' ') = false ∨
        (formatCodeInfo (rest.headD ' ')).isSome = true ∨ isDigit (rest.headD ' ') = true)) ∧
    (¬(rest = [] ∨ isAlphanumeric (rest.headD ' ') = false ∨
        (formatCodeInfo (rest.headD ' ')).isSome = true ∨ isDigit (rest.headD ' ') = true) →
      tokNext (c :: rest) =
        .ok (⟨.ident, c :: rest.takeWhile isIdentChar⟩, rest.dropWhile isIdentChar)) := by
  have hbp : ((decide (rest = []) || ((!isAlphanumeric (rest.headD ' ') ||
      (formatCodeInfo (rest.headD ' ')).isSome) || isDigit (rest.headD ' '))) = true) ↔
      (rest = [] ∨ isAlphanumeric (rest.headD ' ') = false ∨
        (formatCodeInfo (rest.headD ' ')).isSome = true ∨ isDigit (rest.headD ' ') = true) := by
    simp [Bool.or_eq_true, or_assoc]
  constructor
  · constructor
    · intro hex
      obtain ⟨r, hr⟩ := hex
      by_contra hnp
      rw [hkey, if_neg (fun hb => hnp (hbp.mp hb))] at hr
      simp at hr
    · intro hp
      exact ⟨rest, by rw [hkey, if_pos (hbp.mpr hp)]⟩
  · intro hnp
    rw [hkey, if_neg (fun hb => hnp (hbp.mp hb))]

/-- C6: a format-set letter lexes as a `Format` token exactly when it
is the last character, or the following character is not alphanumeric,
or is itself a format-code letter, or is a digit; otherwise it starts
an `Ident` token.  Hence `bar` lexes as one identifier, `bH` as two
format tokens, and `b4B` as format `b`, number `4`, format `B`. -/
theorem C6_lexer_classification :
    (∀ (c : Char) (rest : List Char), (formatCodeInfo c).isSome = true →
      ((∃ r, tokNext (c :: rest) = .ok (⟨.format, [c]⟩, r)) ↔
        (rest = [] ∨ isAlphanumeric (rest.headD ' ') = false ∨
          (formatCodeInfo (rest.headD ' ')).isSome = true ∨
          isDigit (rest.headD ' ') = true)) ∧
      (¬(rest = [] ∨ isAlphanumeric (rest.headD ' ') = false ∨
          (formatCodeInfo (rest.headD ' ')).isSome = true ∨
          isDigit (rest.headD ' ') = true) →
        tokNext (c :: rest) =
          .ok (⟨.ident, c :: rest.takeWhile isIdentChar⟩, rest.dropWhile isIdentChar))) ∧
    tokenize "bar" = .ok [⟨.ident, ['b', 'a', 'r']⟩, ⟨.eof, []⟩] ∧
    tokenize "bH" = .ok [⟨.format, ['b']⟩, ⟨.format, ['H']⟩, ⟨.eof, []⟩] ∧
    tokenize "b4B" =
      .ok [⟨.format, ['b']⟩, ⟨.number, ['4']⟩, ⟨.format, ['B']⟩, ⟨.eof, []⟩] := by
  refine ⟨?_, rfl, rfl, rfl⟩
  intro c rest h
  have hc : c = 'b' ∨ c = 'B' ∨ c = 'h' ∨ c = 'H' ∨ c = 'i' ∨ c = 'I' ∨
      c = 'q' ∨ c = 'Q' := by
    unfold formatCodeInfo at h
    split at h <;> simp_all
  rcases hc with rfl | rfl | rfl | rfl | rfl | rfl | rfl | rfl <;>
    exact tokNext_fmt_class _ rest rfl

/-- Witness for C6 at concrete inputs: `b` before `H` is a format
token, while `b` before `a` starts an identifier. -/
theorem C6_lexer_classification_witness :
    (∃ r, tokNext ['b', 'H'] = .ok (⟨.format, ['b']⟩, r)) ∧
    tokNext ['b', 'a', 'r'] = .ok (⟨.ident, ['b', 'a', 'r']⟩, []) := by
  constructor
  · exact ((C6_lexer_classification.1 'b' ['H'] (by decide)).1).mpr (by decide)
  · have h := (C6_lexer_classification.1 'b' ['a', 'r'] (by decide)).2 (by decide)
    simpa using h

/-- C7: a count prefix equal to `0` is rejected at parse time — the
format-code loop can never succeed from a state whose current token is
a number of value `0` (so no AST results), as on the concrete input
`"0b"` — and a format code with no count prefix parses to exactly the
same result as one with an explicit count of `1`, so its decoding
behaves identically. -/
theorem C7_count_rules :
    (∀ (fuel : Nat) (st : PState) (acc : List FormatCode)
      (r : List FormatCode × PState),
      st.current.type = .number → digitsToNat st.current.value = 0 →
      parseFormatLoop fuel st acc ≠ .ok r) ∧
    (∃ e, ParseExpression "0b" = .error e) ∧
    ∀ c : Char, (formatCodeInfo c).isSome = true →
      ParseExpression (String.mk [c]) = ParseExpression (String.mk ['1', c]) := by
  refine ⟨?_, ⟨"count must be at least 1", rfl⟩, ?_⟩
  · intro fuel st acc r hnum hzero
    cases fuel with
    | zero => simp [parseFormatLoop]
    | succ fuel =>
      simp [parseFormatLoop, atoi, hnum, hzero, except_bind_error]
  · intro c h
    have hc : c = 'b' ∨ c = 'B' ∨ c = 'h' ∨ c = 'H' ∨ c = 'i' ∨ c = 'I' ∨
        c = 'q' ∨ c = 'Q' := by
      unfold formatCodeInfo at h
      split at h <;> simp_all
    rcases hc with rfl | rfl | rfl | rfl | rfl | rfl | rfl | rfl
    · exact (show ParseExpression (String.mk ['b']) =
        .ok (.format ⟨.nativeOrder, [⟨'b', 1, true, 1⟩]⟩) from rfl).trans
        (show ParseExpression (String.mk ['1', 'b']) =
          .ok (.format ⟨.nativeOrder, [⟨'b', 1, true, 1⟩]⟩) from rfl).symm
    · exact (show ParseExpression (String.mk ['B']) =
        .ok (.format ⟨.nativeOrder, [⟨'B', 1, false, 1⟩]⟩) from rfl).trans
        (show ParseExpression (String.mk ['1', 'B']) =
          .ok (.format ⟨.nativeOrder, [⟨'B', 1, false, 1⟩]⟩) from rfl).symm
    · exact (show ParseExpression (String.mk ['h']) =
        .ok (.format ⟨.nativeOrder, [⟨'h', 2, true, 1⟩]⟩) from rfl).trans
        (show ParseExpression (String.mk ['1', 'h']) =
          .ok (.format ⟨.nativeOrder, [⟨'h', 2, true, 1⟩]⟩) from rfl).symm
    · exact (show ParseExpression (String.mk ['H']) =
        .ok (.format ⟨.nativeOrder, [⟨'H', 2, false, 1⟩]⟩) from rfl).trans
        (show ParseExpression (String.mk ['1', 'H']) =
          .ok (.format ⟨.nativeOrder, [⟨'H', 2, false, 1⟩]⟩) from rfl).symm
    · exact (show ParseExpression (String.mk ['i']) =
        .ok (.format ⟨.nativeOrder, [⟨'i', 4, true, 1⟩]⟩) from rfl).trans
        (show ParseExpression (String.mk ['1', 'i']) =
          .ok (.format ⟨.nativeOrder, [⟨'i', 4, true, 1⟩]⟩) from rfl).symm
    · exact (show ParseExpression (String.mk ['I']) =
        .ok (.format ⟨.nativeOrder, [⟨'I', 4, false, 1⟩]⟩) from rfl).trans
        (show ParseExpression (String.mk ['1', 'I']) =
          .ok (.format ⟨.nativeOrder, [⟨'I', 4, false, 1⟩]⟩) from rfl).symm
    · exact (show ParseExpression (String.mk ['q']) =
        .ok (.format ⟨.nativeOrder, [⟨'q', 8, true, 1⟩]⟩) from rfl).trans
        (show ParseExpression (String.mk ['1', 'q']) =
          .ok (.format ⟨.nativeOrder, [⟨'q', 8, true, 1⟩]⟩) from rfl).symm
    · exact (show ParseExpression (String.mk ['Q']) =
        .ok (.format ⟨.nativeOrder, [⟨'Q', 8, false, 1⟩]⟩) from rfl).trans
        (show ParseExpression (String.mk ['1', 'Q']) =
          .ok (.format ⟨.nativeOrder, [⟨'Q', 8, false, 1⟩]⟩) from rfl).symm

/-- Witness for C7 at concrete inputs: the loop rejects a `0` count
token, and `"b"` parses identically to `"1b"`. -/
theorem C7_count_rules_witness :
    parseFormatLoop 5 ⟨[], ⟨.number, ['0']⟩⟩ [] ≠ .ok ([], ⟨[], ⟨.eof, []⟩⟩) ∧
    ParseExpression (String.mk ['b']) = ParseExpression (String.mk ['1', 'b']) := by
  constructor
  · exact C7_count_rules.1 5 ⟨[], ⟨.number, ['0']⟩⟩ [] ([], ⟨[], ⟨.eof, []⟩⟩)
      (by decide) (by decide)
  · exact C7_count_rules.2.2 'b' (by decide)

/-- C5: the evaluated source's `parsePipe` does not implement
`Pipe := Primary ('|' Stage)*` with `Stage := Object | WriteCall`.  On
the repository's own test input `<bH | write("output.bin")`
(`TestParseExpressionWrite` expects success) the parser fails because
the single pipe stage must be an object literal; and with two `|`
operators the parse returns without error only because everything after
the first stage is silently ignored — the resulting AST has no second
stage at all. -/
theorem C5_pipe_stage_divergence :
    (∃ e, ParseExpression "<bH | write(\"output.bin\")" = .error e) ∧
    ParseExpression "<bH | {0 -> key, 1 -> value} | write(\"output.bin\")" =
      .ok (.pipe
        (.format ⟨.littleEndian, [⟨'b', 1, true, 1⟩, ⟨'H', 2, false, 1⟩]⟩)
        (.object [.index 0 "key", .index 1 "value"])) := by
  exact ⟨⟨"expected open brace", rfl⟩, rfl⟩

section RoundTripLemmas

/-- Serializing to `w` little-endian bytes produces `w` bytes. -/
theorem length_leBytes : ∀ (w n : Nat), (leBytes w n).length = w
  | 0, _ => rfl
  | w + 1, n => by simp [leBytes, length_leBytes w]

/-- Reading back `w` little-endian bytes of a value below `256^w`
recovers the value. -/
theorem leNat_leBytes : ∀ (w n : Nat), n < 256 ^ w → leNat (leBytes w n) = n
  | 0, n, h => by simp [leBytes, leNat]; omega
  | w + 1, n, h => by
    have hdiv : n / 256 < 256 ^ w := by
      rw [Nat.div_lt_iff_lt_mul (by norm_num : 0 < 256)]
      calc n < 256 ^ (w + 1) := h
        _ = 256 ^ w * 256 := by ring
    simp [leBytes, leNat, leNat_leBytes w (n / 256) hdiv]
    omega

/-- Serializing to `w` bytes in either order produces `w` bytes. -/
theorem length_ordBytes (o : BinOrder) (w n : Nat) : (ordBytes o w n).length = w := by
  cases o <;> simp [ordBytes, length_leBytes]

/-- Reading back the `w` bytes of a value below `256^w` in the same
byte order recovers the value. -/
theorem ordNat_ordBytes (o : BinOrder) (w n : Nat) (h : n < 256 ^ w) :
    ordNat o (ordBytes o w n) = n := by
  cases o <;> simp [ordBytes, ordNat, leNat_leBytes w n h]

/-- Powers of `256` as powers of `2`. -/
theorem pow256_eq (w : Nat) : (256 : Nat) ^ w = 2 ^ (8 * w) := by
  rw [show (256 : Nat) = 2 ^ 8 from rfl, ← pow_mul]

/-- The unsigned representation is bounded by the width. -/
theorem toUnsigned_lt (bits : Nat) (n : Int) (h : 0 < bits) :
    toUnsigned bits n < 2 ^ bits := by
  unfold toUnsigned
  have hM : (0 : Int) < ((2 ^ bits : Nat) : Int) := by positivity
  have := Int.emod_lt_of_pos n hM
  have := Int.emod_nonneg n (by omega : ((2 ^ bits : Nat) : Int) ≠ 0)
  omega

/-- Two's-complement round trip: converting a signed value in range to
its unsigned `bits`-wide representation and back recovers the value. -/
theorem toSigned_toUnsigned (bits : Nat) (n : Int) (hbits : 0 < bits)
    (hlo : -(2 ^ (bits - 1)) ≤ n) (hhi : n < 2 ^ (bits - 1)) :
    toSigned bits (toUnsigned bits n) = n := by
  have hsplit : ((2 ^ bits : Nat) : Int) = ((2 ^ (bits - 1) : Nat) : Int) * 2 := by
    push_cast
    rw [← pow_succ]
    congr 1
    omega
  have hcast1 : ((2 ^ (bits - 1) : Nat) : Int) = 2 ^ (bits - 1) := by push_cast; rfl
  have hcast : ((2 ^ bits : Nat) : Int) = 2 ^ bits := by push_cast; rfl
  unfold toSigned toUnsigned
  rcases le_or_lt 0 n with hn | hn
  · have hmod : n % ((2 ^ bits : Nat) : Int) = n :=
      Int.emod_eq_of_lt hn (by omega)
    rw [hmod, if_pos (by omega : n.toNat < 2 ^ (bits - 1))]
    omega
  · have hmod : n % ((2 ^ bits : Nat) : Int) = n + ((2 ^ bits : Nat) : Int) := by
      have h1 : (n + ((2 ^ bits : Nat) : Int) * 1) % ((2 ^ bits : Nat) : Int) =
          n % ((2 ^ bits : Nat) : Int) :=
        Int.add_mul_emod_self_left n ((2 ^ bits : Nat) : Int) 1
      rw [mul_one] at h1
      rw [← h1]
      exact Int.emod_eq_of_lt (by omega) (by omega)
    rw [hmod,
      if_neg (by omega : ¬(n + ((2 ^ bits : Nat) : Int)).toNat < 2 ^ (bits - 1))]
    omega

/-- Reading exactly the length of a prefix returns that prefix and the
rest. -/
theorem readBytes_of_length (bs rest : List Nat) (n : Nat) (h : bs.length = n) :
    readBytes n (bs ++ rest) = .ok (bs, rest) := by
  subst h
  rw [readBytes, if_pos (by simp)]
  simp [List.take_left, List.drop_left]

/-- Chunking the concatenation of equal-width blocks recovers the
blocks. -/
theorem sliceChunks_flatten (w : Nat) :
    ∀ xs : List (List Nat), (∀ x ∈ xs, x.length = w) →
      sliceChunks xs.length w xs.flatten = xs := by
  intro xs
  induction xs with
  | nil => intro _; simp [sliceChunks]
  | cons x xs ih =>
    intro hall
    have hx : x.length = w := hall x (by simp)
    simp only [List.length_cons, List.flatten_cons, sliceChunks]
    rw [List.take_left' hx, List.drop_left' hx,
      ih fun y hy => hall y (by simp [hy])]

/-- Flattening equal-width blocks yields `w · count` bytes. -/
theorem flatten_length_const (w : Nat) :
    ∀ xs : List (List Nat), (∀ x ∈ xs, x.length = w) →
      xs.flatten.length = w * xs.length := by
  intro xs
  induction xs with
  | nil => intro _; simp
  | cons x xs ih =>
    intro hall
    have hx : x.length = w := hall x (by simp)
    simp [List.length_append, hx, ih fun y hy => hall y (by simp [hy])]
    ring

/-- The byte order of a round-trip expression resolves to the fixed
order it was built from, on any machine. -/
theorem binaryOrder_exprForOrder (o native : BinOrder) (fmts : List FormatCode) :
    Expr.binaryOrder ⟨exprForOrder o, fmts⟩ native = o := by
  cases o <;> rfl

end RoundTripLemmas

/-- Round trip of a signed 1-byte scalar through code `b`. -/
theorem roundtrip_scalar_b (o native : BinOrder) (n : Int) (rest : List Nat)
    (hlo : -(2 ^ 7) ≤ n) (hhi : n < 2 ^ 7) :
    ∃ bs, encodeValue (.i8 n) o = .ok bs ∧
      Expr.Read ⟨exprForOrder o, [⟨'b', 1, true, 1⟩]⟩ native (bs ++ rest) =
        .ok ([.i8 n], rest) := by
  refine ⟨[toUnsigned 8 n], rfl, ?_⟩
  have hlen : ([toUnsigned 8 n] : List Nat).length = 1 := rfl
  simp only [Expr.Read, binaryOrder_exprForOrder, readFormats]
  rw [if_neg (by decide : ¬(('b' : Char) = 's'))]
  simp only [readBytes_of_length _ rest 1 hlen, except_bind_ok]
  simp only [FormatCode.decode, List.getD_cons_zero,
    toSigned_toUnsigned 8 n (by norm_num) hlo hhi, except_bind_ok]
  rfl

/-- Round trip of an unsigned 1-byte scalar through code `B`. -/
theorem roundtrip_scalar_B (o native : BinOrder) (n : Nat) (rest : List Nat)
    (hlt : n < 2 ^ 8) :
    ∃ bs, encodeValue (.u8 n) o = .ok bs ∧
      Expr.Read ⟨exprForOrder o, [⟨'B', 1, false, 1⟩]⟩ native (bs ++ rest) =
        .ok ([.u8 n], rest) := by
  have hmod : n % 2 ^ 8 = n := Nat.mod_eq_of_lt hlt
  refine ⟨[n % 2 ^ 8], rfl, ?_⟩
  have hlen : ([n % 2 ^ 8] : List Nat).length = 1 := rfl
  simp only [Expr.Read, binaryOrder_exprForOrder, readFormats]
  rw [if_neg (by decide : ¬(('B' : Char) = 's'))]
  simp only [readBytes_of_length _ rest 1 hlen, except_bind_ok]
  simp only [FormatCode.decode, List.getD_cons_zero, hmod, except_bind_ok]
  rfl

/-- Round trip of a signed 2-byte scalar through code `h`. -/
theorem roundtrip_scalar_h (o native : BinOrder) (n : Int) (rest : List Nat)
    (hlo : -(2 ^ 15) ≤ n) (hhi : n < 2 ^ 15) :
    ∃ bs, encodeValue (.i16 n) o = .ok bs ∧
      Expr.Read ⟨exprForOrder o, [⟨'h', 2, true, 1⟩]⟩ native (bs ++ rest) =
        .ok ([.i16 n], rest) := by
  refine ⟨ordBytes o 2 (toUnsigned 16 n), rfl, ?_⟩
  have hlen : (ordBytes o 2 (toUnsigned 16 n)).length = 2 := length_ordBytes o 2 _
  have hru : toUnsigned 16 n < 256 ^ 2 := by
    have := toUnsigned_lt 16 n (by norm_num)
    simpa [pow256_eq] using this
  simp only [Expr.Read, binaryOrder_exprForOrder, readFormats]
  rw [if_neg (by decide : ¬(('h' : Char) = 's'))]
  simp only [readBytes_of_length _ rest 2 hlen, except_bind_ok]
  simp only [FormatCode.decode, List.take_of_length_le (le_of_eq hlen),
    ordNat_ordBytes o 2 _ hru, toSigned_toUnsigned 16 n (by norm_num) hlo hhi,
    except_bind_ok]
  rfl

/-- Round trip of an unsigned 2-byte scalar through code `H`. -/
theorem roundtrip_scalar_H (o native : BinOrder) (n : Nat) (rest : List Nat)
    (hlt : n < 2 ^ 16) :
    ∃ bs, encodeValue (.u16 n) o = .ok bs ∧
      Expr.Read ⟨exprForOrder o, [⟨'H', 2, false, 1⟩]⟩ native (bs ++ rest) =
        .ok ([.u16 n], rest) := by
  have hmod : n % 2 ^ 16 = n := Nat.mod_eq_of_lt hlt
  refine ⟨ordBytes o 2 (n % 2 ^ 16), rfl, ?_⟩
  have hlen : (ordBytes o 2 (n % 2 ^ 16)).length = 2 := length_ordBytes o 2 _
  have hru : n % 2 ^ 16 < 256 ^ 2 := by
    have : n % 2 ^ 16 < 2 ^ 16 := Nat.mod_lt _ (by norm_num)
    simpa [pow256_eq] using this
  simp only [Expr.Read, binaryOrder_exprForOrder, readFormats]
  rw [if_neg (by decide : ¬(('H' : Char) = 's'))]
  simp only [readBytes_of_length _ rest 2 hlen, except_bind_ok]
  simp only [FormatCode.decode, List.take_of_length_le (le_of_eq hlen),
    ordNat_ordBytes o 2 _ hru, except_bind_ok]
  simp only [hmod]
  rfl

/-- Round trip of a signed 4-byte scalar through code `i`. -/
theorem roundtrip_scalar_i (o native : BinOrder) (n : Int) (rest : List Nat)
    (hlo : -(2 ^ 31) ≤ n) (hhi : n < 2 ^ 31) :
    ∃ bs, encodeValue (.i32 n) o = .ok bs ∧
      Expr.Read ⟨exprForOrder o, [⟨'i', 4, true, 1⟩]⟩ native (bs ++ rest) =
        .ok ([.i32 n], rest) := by
  refine ⟨ordBytes o 4 (toUnsigned 32 n), rfl, ?_⟩
  have hlen : (ordBytes o 4 (toUnsigned 32 n)).length = 4 := length_ordBytes o 4 _
  have hru : toUnsigned 32 n < 256 ^ 4 := by
    have := toUnsigned_lt 32 n (by norm_num)
    simpa [pow256_eq] using this
  simp only [Expr.Read, binaryOrder_exprForOrder, readFormats]
  rw [if_neg (by decide : ¬(('i' : Char) = 's'))]
  simp only [readBytes_of_length _ rest 4 hlen, except_bind_ok]
  simp only [FormatCode.decode, List.take_of_length_le (le_of_eq hlen),
    ordNat_ordBytes o 4 _ hru, toSigned_toUnsigned 32 n (by norm_num) hlo hhi,
    except_bind_ok]
  rfl

/-- Round trip of an unsigned 4-byte scalar through code `I`. -/
theorem roundtrip_scalar_I (o native : BinOrder) (n : Nat) (rest : List Nat)
    (hlt : n < 2 ^ 32) :
    ∃ bs, encodeValue (.u32 n) o = .ok bs ∧
      Expr.Read ⟨exprForOrder o, [⟨'I', 4, false, 1⟩]⟩ native (bs ++ rest) =
        .ok ([.u32 n], rest) := by
  have hmod : n % 2 ^ 32 = n := Nat.mod_eq_of_lt hlt
  refine ⟨ordBytes o 4 (n % 2 ^ 32), rfl, ?_⟩
  have hlen : (ordBytes o 4 (n % 2 ^ 32)).length = 4 := length_ordBytes o 4 _
  have hru : n % 2 ^ 32 < 256 ^ 4 := by
    have : n % 2 ^ 32 < 2 ^ 32 := Nat.mod_lt _ (by norm_num)
    simpa [pow256_eq] using this
  simp only [Expr.Read, binaryOrder_exprForOrder, readFormats]
  rw [if_neg (by decide : ¬(('I' : Char) = 's'))]
  simp only [readBytes_of_length _ rest 4 hlen, except_bind_ok]
  simp only [FormatCode.decode, List.take_of_length_le (le_of_eq hlen),
    ordNat_ordBytes o 4 _ hru, except_bind_ok]
  simp only [hmod]
  rfl

/-- Round trip of a signed 8-byte scalar through code `q`. -/
theorem roundtrip_scalar_q (o native : BinOrder) (n : Int) (rest : List Nat)
    (hlo : -(2 ^ 63) ≤ n) (hhi : n < 2 ^ 63) :
    ∃ bs, encodeValue (.i64 n) o = .ok bs ∧
      Expr.Read ⟨exprForOrder o, [⟨'q', 8, true, 1⟩]⟩ native (bs ++ rest) =
        .ok ([.i64 n], rest) := by
  refine ⟨ordBytes o 8 (toUnsigned 64 n), rfl, ?_⟩
  have hlen : (ordBytes o 8 (toUnsigned 64 n)).length = 8 := length_ordBytes o 8 _
  have hru : toUnsigned 64 n < 256 ^ 8 := by
    have := toUnsigned_lt 64 n (by norm_num)
    simpa [pow256_eq] using this
  simp only [Expr.Read, binaryOrder_exprForOrder, readFormats]
  rw [if_neg (by decide : ¬(('q' : Char) = 's'))]
  simp only [readBytes_of_length _ rest 8 hlen, except_bind_ok]
  simp only [FormatCode.decode, List.take_of_length_le (le_of_eq hlen),
    ordNat_ordBytes o 8 _ hru, toSigned_toUnsigned 64 n (by norm_num) hlo hhi,
    except_bind_ok]
  rfl

/-- Round trip of an unsigned 8-byte scalar through code `Q`. -/
theorem roundtrip_scalar_Q (o native : BinOrder) (n : Nat) (rest : List Nat)
    (hlt : n < 2 ^ 64) :
    ∃ bs, encodeValue (.u64 n) o = .ok bs ∧
      Expr.Read ⟨exprForOrder o, [⟨'Q', 8, false, 1⟩]⟩ native (bs ++ rest) =
        .ok ([.u64 n], rest) := by
  have hmod : n % 2 ^ 64 = n := Nat.mod_eq_of_lt hlt
  refine ⟨ordBytes o 8 (n % 2 ^ 64), rfl, ?_⟩
  have hlen : (ordBytes o 8 (n % 2 ^ 64)).length = 8 := length_ordBytes o 8 _
  have hru : n % 2 ^ 64 < 256 ^ 8 := by
    have : n % 2 ^ 64 < 2 ^ 64 := Nat.mod_lt _ (by norm_num)
    simpa [pow256_eq] using this
  simp only [Expr.Read, binaryOrder_exprForOrder, readFormats]
  rw [if_neg (by decide : ¬(('Q' : Char) = 's'))]
  simp only [readBytes_of_length _ rest 8 hlen, except_bind_ok]
  simp only [FormatCode.decode, List.take_of_length_le (le_of_eq hlen),
    ordNat_ordBytes o 8 _ hru, except_bind_ok]
  simp only [hmod]
  rfl

/-- Round trip of a signed-byte array through code `b`. -/
theorem roundtrip_array_b (o native : BinOrder) (l : List Int) (rest : List Nat)
    (hlen : 2 ≤ l.length) (helts : ∀ x ∈ l, -(2 ^ 7) ≤ x ∧ x < 2 ^ 7) :
    ∃ bs, encodeValue (.arrI8 l) o = .ok bs ∧
      Expr.Read ⟨exprForOrder o, [⟨'b', 1, true, l.length⟩]⟩ native (bs ++ rest) =
        .ok ([.arrI8 l], rest) := by
  refine ⟨_, rfl, ?_⟩
  have hfl : (l.map (toUnsigned 8)).length = 1 * l.length := by simp
  simp only [Expr.Read, binaryOrder_exprForOrder, readFormats]
  rw [if_neg (by decide : ¬(('b' : Char) = 's'))]
  rw [if_neg (by omega : ¬l.length = 0), if_neg (by omega : ¬l.length = 1)]
  simp only [FormatCode.decodeArray,
    readBytes_of_length _ rest (1 * l.length) hfl, except_bind_ok]
  have hmap : ((l.map (toUnsigned 8)).map (toSigned 8)) = l := by
    rw [List.map_map]
    have hpt : ∀ x ∈ l, (toSigned 8 ∘ toUnsigned 8) x = x := by
      intro x hx
      exact toSigned_toUnsigned 8 x (by norm_num) (helts x hx).1 (helts x hx).2
    rw [List.map_congr_left hpt]
    simp
  rw [hmap]

/-- Round trip of an unsigned-byte array through code `B`. -/
theorem roundtrip_array_B (o native : BinOrder) (l : List Nat) (rest : List Nat)
    (hlen : 2 ≤ l.length) (helts : ∀ x ∈ l, x < 2 ^ 8) :
    ∃ bs, encodeValue (.arrU8 l) o = .ok bs ∧
      Expr.Read ⟨exprForOrder o, [⟨'B', 1, false, l.length⟩]⟩ native (bs ++ rest) =
        .ok ([.arrU8 l], rest) := by
  refine ⟨_, rfl, ?_⟩
  have hfl : (l.map (· % 2 ^ 8)).length = 1 * l.length := by simp
  simp only [Expr.Read, binaryOrder_exprForOrder, readFormats]
  rw [if_neg (by decide : ¬(('B' : Char) = 's'))]
  rw [if_neg (by omega : ¬l.length = 0), if_neg (by omega : ¬l.length = 1)]
  simp only [FormatCode.decodeArray,
    readBytes_of_length _ rest (1 * l.length) hfl, except_bind_ok]
  have hmap : (l.map (· % 2 ^ 8)) = l := by
    have hpt : ∀ x ∈ l, x % 2 ^ 8 = x := fun x hx => Nat.mod_eq_of_lt (helts x hx)
    rw [List.map_congr_left hpt]
    simp
  rw [hmap]

/-- Round trip of signed 2-byte-element array through code `h`. -/
theorem roundtrip_array_h (o native : BinOrder) (l : List Int) (rest : List Nat)
    (hlen : 2 ≤ l.length) (helts : ∀ x ∈ l, -(2 ^ 15) ≤ x ∧ x < 2 ^ 15) :
    ∃ bs, encodeValue (.arrI16 l) o = .ok bs ∧
      Expr.Read ⟨exprForOrder o, [⟨'h', 2, true, l.length⟩]⟩ native (bs ++ rest) =
        .ok ([.arrI16 l], rest) := by
  refine ⟨_, rfl, ?_⟩
  have hw : ∀ x ∈ l.map (fun m => ordBytes o 2 (toUnsigned 16 m)), x.length = 2 := by
    intro x hx
    obtain ⟨m, _, rfl⟩ := List.mem_map.mp hx
    exact length_ordBytes o 2 _
  have hfl : (l.map (fun m => ordBytes o 2 (toUnsigned 16 m))).flatten.length = 2 * l.length := by
    rw [flatten_length_const 2 _ hw]
    simp
  simp only [Expr.Read, binaryOrder_exprForOrder, readFormats]
  rw [if_neg (by decide : ¬(('h' : Char) = 's'))]
  rw [if_neg (by omega : ¬l.length = 0), if_neg (by omega : ¬l.length = 1)]
  simp only [FormatCode.decodeArray,
    readBytes_of_length _ rest (2 * l.length) hfl, except_bind_ok]
  have hchunks : sliceChunks l.length 2 (l.map (fun m => ordBytes o 2 (toUnsigned 16 m))).flatten =
      l.map (fun m => ordBytes o 2 (toUnsigned 16 m)) := by
    have := sliceChunks_flatten 2 (l.map (fun m => ordBytes o 2 (toUnsigned 16 m))) hw
    simpa using this
  rw [hchunks]
  have hmap : ((l.map (fun m => ordBytes o 2 (toUnsigned 16 m))).map (fun c => toSigned 16 (ordNat o c))) = l := by
    rw [List.map_map]
    have hpt : ∀ x ∈ l, ((fun c => toSigned 16 (ordNat o c)) ∘ (fun m => ordBytes o 2 (toUnsigned 16 m))) x = x := by
      intro x hx
      simp only [Function.comp_apply]
      rw [ordNat_ordBytes o 2 (toUnsigned 16 x) (by
        have := toUnsigned_lt 16 x (by norm_num)
        simpa [pow256_eq] using this)]
      exact toSigned_toUnsigned 16 x (by norm_num) (helts x hx).1 (helts x hx).2
    rw [List.map_congr_left hpt]
    simp
  rw [hmap]

/-- Round trip of an unsigned 2-byte-element array through code `H`. -/
theorem roundtrip_array_H (o native : BinOrder) (l : List Nat) (rest : List Nat)
    (hlen : 2 ≤ l.length) (helts : ∀ x ∈ l, x < 2 ^ 16) :
    ∃ bs, encodeValue (.arrU16 l) o = .ok bs ∧
      Expr.Read ⟨exprForOrder o, [⟨'H', 2, false, l.length⟩]⟩ native (bs ++ rest) =
        .ok ([.arrU16 l], rest) := by
  refine ⟨_, rfl, ?_⟩
  have hw : ∀ x ∈ l.map (fun m => ordBytes o 2 (m % 2 ^ 16)), x.length = 2 := by
    intro x hx
    obtain ⟨m, _, rfl⟩ := List.mem_map.mp hx
    exact length_ordBytes o 2 _
  have hfl : (l.map (fun m => ordBytes o 2 (m % 2 ^ 16))).flatten.length = 2 * l.length := by
    rw [flatten_length_const 2 _ hw]
    simp
  simp only [Expr.Read, binaryOrder_exprForOrder, readFormats]
  rw [if_neg (by decide : ¬(('H' : Char) = 's'))]
  rw [if_neg (by omega : ¬l.length = 0), if_neg (by omega : ¬l.length = 1)]
  simp only [FormatCode.decodeArray,
    readBytes_of_length _ rest (2 * l.length) hfl, except_bind_ok]
  have hchunks : sliceChunks l.length 2 (l.map (fun m => ordBytes o 2 (m % 2 ^ 16))).flatten =
      l.map (fun m => ordBytes o 2 (m % 2 ^ 16)) := by
    have := sliceChunks_flatten 2 (l.map (fun m => ordBytes o 2 (m % 2 ^ 16))) hw
    simpa using this
  rw [hchunks]
  have hmap : ((l.map (fun m => ordBytes o 2 (m % 2 ^ 16))).map (fun c => ordNat o c)) = l := by
    rw [List.map_map]
    have hpt : ∀ x ∈ l, ((fun c => ordNat o c) ∘ (fun m => ordBytes o 2 (m % 2 ^ 16))) x = x := by
      intro x hx
      have hxlt : x % 2 ^ 16 < 256 ^ 2 := by
        have : x % 2 ^ 16 < 2 ^ 16 := Nat.mod_lt _ (by norm_num)
        simpa [pow256_eq] using this
      simp only [Function.comp_apply]
      rw [ordNat_ordBytes o 2 (x % 2 ^ 16) hxlt]
      exact Nat.mod_eq_of_lt (helts x hx)
    rw [List.map_congr_left hpt]
    simp
  rw [hmap]

/-- Round trip of signed 4-byte-element array through code `i`. -/
theorem roundtrip_array_i (o native : BinOrder) (l : List Int) (rest : List Nat)
    (hlen : 2 ≤ l.length) (helts : ∀ x ∈ l, -(2 ^ 31) ≤ x ∧ x < 2 ^ 31) :
    ∃ bs, encodeValue (.arrI32 l) o = .ok bs ∧
      Expr.Read ⟨exprForOrder o, [⟨'i', 4, true, l.length⟩]⟩ native (bs ++ rest) =
        .ok ([.arrI32 l], rest) := by
  refine ⟨_, rfl, ?_⟩
  have hw : ∀ x ∈ l.map (fun m => ordBytes o 4 (toUnsigned 32 m)), x.length = 4 := by
    intro x hx
    obtain ⟨m, _, rfl⟩ := List.mem_map.mp hx
    exact length_ordBytes o 4 _
  have hfl : (l.map (fun m => ordBytes o 4 (toUnsigned 32 m))).flatten.length = 4 * l.length := by
    rw [flatten_length_const 4 _ hw]
    simp
  simp only [Expr.Read, binaryOrder_exprForOrder, readFormats]
  rw [if_neg (by decide : ¬(('i' : Char) = 's'))]
  rw [if_neg (by omega : ¬l.length = 0), if_neg (by omega : ¬l.length = 1)]
  simp only [FormatCode.decodeArray,
    readBytes_of_length _ rest (4 * l.length) hfl, except_bind_ok]
  have hchunks : sliceChunks l.length 4 (l.map (fun m => ordBytes o 4 (toUnsigned 32 m))).flatten =
      l.map (fun m => ordBytes o 4 (toUnsigned 32 m)) := by
    have := sliceChunks_flatten 4 (l.map (fun m => ordBytes o 4 (toUnsigned 32 m))) hw
    simpa using this
  rw [hchunks]
  have hmap : ((l.map (fun m => ordBytes o 4 (toUnsigned 32 m))).map (fun c => toSigned 32 (ordNat o c))) = l := by
    rw [List.map_map]
    have hpt : ∀ x ∈ l, ((fun c => toSigned 32 (ordNat o c)) ∘ (fun m => ordBytes o 4 (toUnsigned 32 m))) x = x := by
      intro x hx
      simp only [Function.comp_apply]
      rw [ordNat_ordBytes o 4 (toUnsigned 32 x) (by
        have := toUnsigned_lt 32 x (by norm_num)
        simpa [pow256_eq] using this)]
      exact toSigned_toUnsigned 32 x (by norm_num) (helts x hx).1 (helts x hx).2
    rw [List.map_congr_left hpt]
    simp
  rw [hmap]

/-- Round trip of an unsigned 4-byte-element array through code `I`. -/
theorem roundtrip_array_I (o native : BinOrder) (l : List Nat) (rest : List Nat)
    (hlen : 2 ≤ l.length) (helts : ∀ x ∈ l, x < 2 ^ 32) :
    ∃ bs, encodeValue (.arrU32 l) o = .ok bs ∧
      Expr.Read ⟨exprForOrder o, [⟨'I', 4, false, l.length⟩]⟩ native (bs ++ rest) =
        .ok ([.arrU32 l], rest) := by
  refine ⟨_, rfl, ?_⟩
  have hw : ∀ x ∈ l.map (fun m => ordBytes o 4 (m % 2 ^ 32)), x.length = 4 := by
    intro x hx
    obtain ⟨m, _, rfl⟩ := List.mem_map.mp hx
    exact length_ordBytes o 4 _
  have hfl : (l.map (fun m => ordBytes o 4 (m % 2 ^ 32))).flatten.length = 4 * l.length := by
    rw [flatten_length_const 4 _ hw]
    simp
  simp only [Expr.Read, binaryOrder_exprForOrder, readFormats]
  rw [if_neg (by decide : ¬(('I' : Char) = 's'))]
  rw [if_neg (by omega : ¬l.length = 0), if_neg (by omega : ¬l.length = 1)]
  simp only [FormatCode.decodeArray,
    readBytes_of_length _ rest (4 * l.length) hfl, except_bind_ok]
  have hchunks : sliceChunks l.length 4 (l.map (fun m => ordBytes o 4 (m % 2 ^ 32))).flatten =
      l.map (fun m => ordBytes o 4 (m % 2 ^ 32)) := by
    have := sliceChunks_flatten 4 (l.map (fun m => ordBytes o 4 (m % 2 ^ 32))) hw
    simpa using this
  rw [hchunks]
  have hmap : ((l.map (fun m => ordBytes o 4 (m % 2 ^ 32))).map (fun c => ordNat o c)) = l := by
    rw [List.map_map]
    have hpt : ∀ x ∈ l, ((fun c => ordNat o c) ∘ (fun m => ordBytes o 4 (m % 2 ^ 32))) x = x := by
      intro x hx
      have hxlt : x % 2 ^ 32 < 256 ^ 4 := by
        have : x % 2 ^ 32 < 2 ^ 32 := Nat.mod_lt _ (by norm_num)
        simpa [pow256_eq] using this
      simp only [Function.comp_apply]
      rw [ordNat_ordBytes o 4 (x % 2 ^ 32) hxlt]
      exact Nat.mod_eq_of_lt (helts x hx)
    rw [List.map_congr_left hpt]
    simp
  rw [hmap]

/-- Round trip of signed 8-byte-element array through code `q`. -/
theorem roundtrip_array_q (o native : BinOrder) (l : List Int) (rest : List Nat)
    (hlen : 2 ≤ l.length) (helts : ∀ x ∈ l, -(2 ^ 63) ≤ x ∧ x < 2 ^ 63) :
    ∃ bs, encodeValue (.arrI64 l) o = .ok bs ∧
      Expr.Read ⟨exprForOrder o, [⟨'q', 8, true, l.length⟩]⟩ native (bs ++ rest) =
        .ok ([.arrI64 l], rest) := by
  refine ⟨_, rfl, ?_⟩
  have hw : ∀ x ∈ l.map (fun m => ordBytes o 8 (toUnsigned 64 m)), x.length = 8 := by
    intro x hx
    obtain ⟨m, _, rfl⟩ := List.mem_map.mp hx
    exact length_ordBytes o 8 _
  have hfl : (l.map (fun m => ordBytes o 8 (toUnsigned 64 m))).flatten.length = 8 * l.length := by
    rw [flatten_length_const 8 _ hw]
    simp
  simp only [Expr.Read, binaryOrder_exprForOrder, readFormats]
  rw [if_neg (by decide : ¬(('q' : Char) = 's'))]
  rw [if_neg (by omega : ¬l.length = 0), if_neg (by omega : ¬l.length = 1)]
  simp only [FormatCode.decodeArray,
    readBytes_of_length _ rest (8 * l.length) hfl, except_bind_ok]
  have hchunks : sliceChunks l.length 8 (l.map (fun m => ordBytes o 8 (toUnsigned 64 m))).flatten =
      l.map (fun m => ordBytes o 8 (toUnsigned 64 m)) := by
    have := sliceChunks_flatten 8 (l.map (fun m => ordBytes o 8 (toUnsigned 64 m))) hw
    simpa using this
  rw [hchunks]
  have hmap : ((l.map (fun m => ordBytes o 8 (toUnsigned 64 m))).map (fun c => toSigned 64 (ordNat o c))) = l := by
    rw [List.map_map]
    have hpt : ∀ x ∈ l, ((fun c => toSigned 64 (ordNat o c)) ∘ (fun m => ordBytes o 8 (toUnsigned 64 m))) x = x := by
      intro x hx
      simp only [Function.comp_apply]
      rw [ordNat_ordBytes o 8 (toUnsigned 64 x) (by
        have := toUnsigned_lt 64 x (by norm_num)
        simpa [pow256_eq] using this)]
      exact toSigned_toUnsigned 64 x (by norm_num) (helts x hx).1 (helts x hx).2
    rw [List.map_congr_left hpt]
    simp
  rw [hmap]

/-- Round trip of an unsigned 8-byte-element array through code `Q`. -/
theorem roundtrip_array_Q (o native : BinOrder) (l : List Nat) (rest : List Nat)
    (hlen : 2 ≤ l.length) (helts : ∀ x ∈ l, x < 2 ^ 64) :
    ∃ bs, encodeValue (.arrU64 l) o = .ok bs ∧
      Expr.Read ⟨exprForOrder o, [⟨'Q', 8, false, l.length⟩]⟩ native (bs ++ rest) =
        .ok ([.arrU64 l], rest) := by
  refine ⟨_, rfl, ?_⟩
  have hw : ∀ x ∈ l.map (fun m => ordBytes o 8 (m % 2 ^ 64)), x.length = 8 := by
    intro x hx
    obtain ⟨m, _, rfl⟩ := List.mem_map.mp hx
    exact length_ordBytes o 8 _
  have hfl : (l.map (fun m => ordBytes o 8 (m % 2 ^ 64))).flatten.length = 8 * l.length := by
    rw [flatten_length_const 8 _ hw]
    simp
  simp only [Expr.Read, binaryOrder_exprForOrder, readFormats]
  rw [if_neg (by decide : ¬(('Q' : Char) = 's'))]
  rw [if_neg (by omega : ¬l.length = 0), if_neg (by omega : ¬l.length = 1)]
  simp only [FormatCode.decodeArray,
    readBytes_of_length _ rest (8 * l.length) hfl, except_bind_ok]
  have hchunks : sliceChunks l.length 8 (l.map (fun m => ordBytes o 8 (m % 2 ^ 64))).flatten =
      l.map (fun m => ordBytes o 8 (m % 2 ^ 64)) := by
    have := sliceChunks_flatten 8 (l.map (fun m => ordBytes o 8 (m % 2 ^ 64))) hw
    simpa using this
  rw [hchunks]
  have hmap : ((l.map (fun m => ordBytes o 8 (m % 2 ^ 64))).map (fun c => ordNat o c)) = l := by
    rw [List.map_map]
    have hpt : ∀ x ∈ l, ((fun c => ordNat o c) ∘ (fun m => ordBytes o 8 (m % 2 ^ 64))) x = x := by
      intro x hx
      have hxlt : x % 2 ^ 64 < 256 ^ 8 := by
        have : x % 2 ^ 64 < 2 ^ 64 := Nat.mod_lt _ (by norm_num)
        simpa [pow256_eq] using this
      simp only [Function.comp_apply]
      rw [ordNat_ordBytes o 8 (x % 2 ^ 64) hxlt]
      exact Nat.mod_eq_of_lt (helts x hx)
    rw [List.map_congr_left hpt]
    simp
  rw [hmap]

/-- Round trip of a nonempty printable string through code `s`. -/
theorem roundtrip_string (o native : BinOrder) (s : List Nat) (rest : List Nat)
    (hne : s ≠ []) (hall : ∀ b ∈ s, isStringByte b = true) :
    ∃ bs, encodeValue (.str s) o = .ok bs ∧
      Expr.Read ⟨exprForOrder o, [⟨'s', 0, false, 1⟩]⟩ native (bs ++ rest) =
        .ok ([.str s], rest) := by
  refine ⟨s ++ [0], rfl, ?_⟩
  have hx : (s ++ [0]) ++ rest = s ++ 0 :: rest := by simp
  rw [hx]
  simp only [Expr.Read, readFormats, if_pos rfl]
  rw [readNullTerminatedString, readStrAux_append_zero s [] rest hall]
  simp [hne, except_bind_ok, readFormats]

/-- Counterexample for C2 as stated: the empty string is a value of
code `s`, its encoding is the lone terminator byte `0x00`, and decoding
that is an error (an immediately-empty string is a decode error), so
`decode(encode(v)) == v` fails at `v = ""`. -/
theorem C2_roundtrip_counterexample :
    encodeValue (.str []) .little = .ok [0] ∧
    Expr.Read ⟨exprForOrder .little, [⟨'s', 0, false, 1⟩]⟩ .little ([0] ++ []) =
      .error "empty string" := ⟨rfl, rfl⟩

/-- C2 (amended): for every format code and fixed byte order, encode
then decode is the identity — for every in-range scalar, for every
array of in-range elements of length at least two (arrays arise only
from `count > 1`), and for every string that is nonempty and consists
only of printable/tab/newline bytes.  (As stated the claim fails for
strings: the empty string, and strings with control bytes, do not
decode back; see the counterexample.) -/
theorem C2_roundtrip_amended :
    (∀ (o native : BinOrder) (n : Int) (rest : List Nat),
      -(2 ^ 7) ≤ n → n < 2 ^ 7 →
      ∃ bs, encodeValue (.i8 n) o = .ok bs ∧
        Expr.Read ⟨exprForOrder o, [⟨'b', 1, true, 1⟩]⟩ native (bs ++ rest) =
          .ok ([.i8 n], rest)) ∧
    (∀ (o native : BinOrder) (n : Nat) (rest : List Nat), n < 2 ^ 8 →
      ∃ bs, encodeValue (.u8 n) o = .ok bs ∧
        Expr.Read ⟨exprForOrder o, [⟨'B', 1, false, 1⟩]⟩ native (bs ++ rest) =
          .ok ([.u8 n], rest)) ∧
    (∀ (o native : BinOrder) (n : Int) (rest : List Nat),
      -(2 ^ 15) ≤ n → n < 2 ^ 15 →
      ∃ bs, encodeValue (.i16 n) o = .ok bs ∧
        Expr.Read ⟨exprForOrder o, [⟨'h', 2, true, 1⟩]⟩ native (bs ++ rest) =
          .ok ([.i16 n], rest)) ∧
    (∀ (o native : BinOrder) (n : Nat) (rest : List Nat), n < 2 ^ 16 →
      ∃ bs, encodeValue (.u16 n) o = .ok bs ∧
        Expr.Read ⟨exprForOrder o, [⟨'H', 2, false, 1⟩]⟩ native (bs ++ rest) =
          .ok ([.u16 n], rest)) ∧
    (∀ (o native : BinOrder) (n : Int) (rest : List Nat),
      -(2 ^ 31) ≤ n → n < 2 ^ 31 →
      ∃ bs, encodeValue (.i32 n) o = .ok bs ∧
        Expr.Read ⟨exprForOrder o, [⟨'i', 4, true, 1⟩]⟩ native (bs ++ rest) =
          .ok ([.i32 n], rest)) ∧
    (∀ (o native : BinOrder) (n : Nat) (rest : List Nat), n < 2 ^ 32 →
      ∃ bs, encodeValue (.u32 n) o = .ok bs ∧
        Expr.Read ⟨exprForOrder o, [⟨'I', 4, false, 1⟩]⟩ native (bs ++ rest) =
          .ok ([.u32 n], rest)) ∧
    (∀ (o native : BinOrder) (n : Int) (rest : List Nat),
      -(2 ^ 63) ≤ n → n < 2 ^ 63 →
      ∃ bs, encodeValue (.i64 n) o = .ok bs ∧
        Expr.Read ⟨exprForOrder o, [⟨'q', 8, true, 1⟩]⟩ native (bs ++ rest) =
          .ok ([.i64 n], rest)) ∧
    (∀ (o native : BinOrder) (n : Nat) (rest : List Nat), n < 2 ^ 64 →
      ∃ bs, encodeValue (.u64 n) o = .ok bs ∧
        Expr.Read ⟨exprForOrder o, [⟨'Q', 8, false, 1⟩]⟩ native (bs ++ rest) =
          .ok ([.u64 n], rest)) ∧
    (∀ (o native : BinOrder) (l : List Int) (rest : List Nat),
      2 ≤ l.length → (∀ x ∈ l, -(2 ^ 7) ≤ x ∧ x < 2 ^ 7) →
      ∃ bs, encodeValue (.arrI8 l) o = .ok bs ∧
        Expr.Read ⟨exprForOrder o, [⟨'b', 1, true, l.length⟩]⟩ native (bs ++ rest) =
          .ok ([.arrI8 l], rest)) ∧
    (∀ (o native : BinOrder) (l : List Nat) (rest : List Nat),
      2 ≤ l.length → (∀ x ∈ l, x < 2 ^ 8) →
      ∃ bs, encodeValue (.arrU8 l) o = .ok bs ∧
        Expr.Read ⟨exprForOrder o, [⟨'B', 1, false, l.length⟩]⟩ native (bs ++ rest) =
          .ok ([.arrU8 l], rest)) ∧
    (∀ (o native : BinOrder) (l : List Int) (rest : List Nat),
      2 ≤ l.length → (∀ x ∈ l, -(2 ^ 15) ≤ x ∧ x < 2 ^ 15) →
      ∃ bs, encodeValue (.arrI16 l) o = .ok bs ∧
        Expr.Read ⟨exprForOrder o, [⟨'h', 2, true, l.length⟩]⟩ native (bs ++ rest) =
          .ok ([.arrI16 l], rest)) ∧
    (∀ (o native : BinOrder) (l : List Nat) (rest : List Nat),
      2 ≤ l.length → (∀ x ∈ l, x < 2 ^ 16) →
      ∃ bs, encodeValue (.arrU16 l) o = .ok bs ∧
        Expr.Read ⟨exprForOrder o, [⟨'H', 2, false, l.length⟩]⟩ native (bs ++ rest) =
          .ok ([.arrU16 l], rest)) ∧
    (∀ (o native : BinOrder) (l : List Int) (rest : List Nat),
      2 ≤ l.length → (∀ x ∈ l, -(2 ^ 31) ≤ x ∧ x < 2 ^ 31) →
      ∃ bs, encodeValue (.arrI32 l) o = .ok bs ∧
        Expr.Read ⟨exprForOrder o, [⟨'i', 4, true, l.length⟩]⟩ native (bs ++ rest) =
          .ok ([.arrI32 l], rest)) ∧
    (∀ (o native : BinOrder) (l : List Nat) (rest : List Nat),
      2 ≤ l.length → (∀ x ∈ l, x < 2 ^ 32) →
      ∃ bs, encodeValue (.arrU32 l) o = .ok bs ∧
        Expr.Read ⟨exprForOrder o, [⟨'I', 4, false, l.length⟩]⟩ native (bs ++ rest) =
          .ok ([.arrU32 l], rest)) ∧
    (∀ (o native : BinOrder) (l : List Int) (rest : List Nat),
      2 ≤ l.length → (∀ x ∈ l, -(2 ^ 63) ≤ x ∧ x < 2 ^ 63) →
      ∃ bs, encodeValue (.arrI64 l) o = .ok bs ∧
        Expr.Read ⟨exprForOrder o, [⟨'q', 8, true, l.length⟩]⟩ native (bs ++ rest) =
          .ok ([.arrI64 l], rest)) ∧
    (∀ (o native : BinOrder) (l : List Nat) (rest : List Nat),
      2 ≤ l.length → (∀ x ∈ l, x < 2 ^ 64) →
      ∃ bs, encodeValue (.arrU64 l) o = .ok bs ∧
        Expr.Read ⟨exprForOrder o, [⟨'Q', 8, false, l.length⟩]⟩ native (bs ++ rest) =
          .ok ([.arrU64 l], rest)) ∧
    (∀ (o native : BinOrder) (s : List Nat) (rest : List Nat),
      s ≠ [] → (∀ b ∈ s, isStringByte b = true) →
      ∃ bs, encodeValue (.str s) o = .ok bs ∧
        Expr.Read ⟨exprForOrder o, [⟨'s', 0, false, 1⟩]⟩ native (bs ++ rest) =
          .ok ([.str s], rest)) := by
  exact ⟨roundtrip_scalar_b, roundtrip_scalar_B, roundtrip_scalar_h, roundtrip_scalar_H, roundtrip_scalar_i, roundtrip_scalar_I, roundtrip_scalar_q, roundtrip_scalar_Q, roundtrip_array_b, roundtrip_array_B, roundtrip_array_h, roundtrip_array_H, roundtrip_array_i, roundtrip_array_I, roundtrip_array_q, roundtrip_array_Q, roundtrip_string⟩

/-- Witness for C2 at concrete inputs: a signed byte, a two-element
unsigned 16-bit array, and the string `"hi"` all round trip. -/
theorem C2_roundtrip_amended_witness :
    (∃ bs, encodeValue (.i8 (-2)) .little = .ok bs ∧
      Expr.Read ⟨exprForOrder .little, [⟨'b', 1, true, 1⟩]⟩ .big (bs ++ [9]) =
        .ok ([.i8 (-2)], [9])) ∧
    (∃ bs, encodeValue (.arrU16 [513, 2]) .big = .ok bs ∧
      Expr.Read ⟨exprForOrder .big, [⟨'H', 2, false, ([513, 2] : List Nat).length⟩]⟩
        .little (bs ++ []) = .ok ([.arrU16 [513, 2]], [])) ∧
    (∃ bs, encodeValue (.str [104, 105]) .little = .ok bs ∧
      Expr.Read ⟨exprForOrder .little, [⟨'s', 0, false, 1⟩]⟩ .little (bs ++ []) =
        .ok ([.str [104, 105]], [])) := by
  refine ⟨?_, ?_, ?_⟩
  · exact C2_roundtrip_amended.1 .little .big (-2) [9] (by norm_num) (by norm_num)
  · exact C2_roundtrip_amended.2.2.2.2.2.2.2.2.2.2.2.1 .big .little [513, 2] []
      (by decide) (by decide)
  · exact C2_roundtrip_amended.2.2.2.2.2.2.2.2.2.2.2.2.2.2.2.2 .little .little
      [104, 105] [] (by decide) (by decide)



theorem tokNext_format_pos (c : Char) (tail : List Char)
    (hkey : tokNext (c :: tail) =
      if (decide (tail = []) || ((!isAlphanumeric (tail.headD ' ') ||
          (formatCodeInfo (tail.headD ' ')).isSome) || isDigit (tail.headD ' '))) = true
      then .ok (⟨.format, [c]⟩, tail)
      else .ok (⟨.ident, c :: tail.takeWhile isIdentChar⟩, tail.dropWhile isIdentChar))
    (hcond : tail = [] ∨ isAlphanumeric (tail.headD ' ') = false ∨
      (formatCodeInfo (tail.headD ' ')).isSome = true ∨ isDigit (tail.headD ' ') = true) :
    tokNext (c :: tail) = .ok (⟨.format, [c]⟩, tail) := by
  have hbp : ((decide (tail = []) || ((!isAlphanumeric (tail.headD ' ') ||
      (formatCodeInfo (tail.headD ' ')).isSome) || isDigit (tail.headD ' '))) = true) ↔
      (tail = [] ∨ isAlphanumeric (tail.headD ' ') = false ∨
        (formatCodeInfo (tail.headD ' ')).isSome = true ∨
        isDigit (tail.headD ' ') = true) := by
    simp [Bool.or_eq_true, or_assoc]
  rw [hkey, if_pos (hbp.mpr hcond)]

theorem tokNext_format_of_cond (c : Char) (tail : List Char)
    (hc : (formatCodeInfo c).isSome = true)
    (hcond : tail = [] ∨ isAlphanumeric (tail.headD ' ') = false ∨
      (formatCodeInfo (tail.headD ' ')).isSome = true ∨ isDigit (tail.headD ' ') = true) :
    tokNext (c :: tail) = .ok (⟨.format, [c]⟩, tail) := by
  have hc8 : c = 'b' ∨ c = 'B' ∨ c = 'h' ∨ c = 'H' ∨ c = 'i' ∨ c = 'I' ∨
      c = 'q' ∨ c = 'Q' := by
    unfold formatCodeInfo at hc
    split at hc <;> simp_all
  rcases hc8 with rfl | rfl | rfl | rfl | rfl | rfl | rfl | rfl <;>
    exact tokNext_format_pos _ tail rfl hcond

theorem digit_char_facts (d : Char) (h : isDigit d = true) :
    d ≠ '|' ∧ d ≠ '{' ∧ d ≠ '}' ∧ d ≠ '(' ∧ d ≠ ')' ∧ d ≠ ':' ∧ d ≠ ',' ∧
    d ≠ '<' ∧ d ≠ '>' ∧ d ≠ '@' ∧ d ≠ '-' ∧ isWhitespace d = false := by
  have hws : isWhitespace d = false := by
    cases hw : isWhitespace d with
    | false => rfl
    | true =>
      exfalso
      simp only [isWhitespace, Bool.or_eq_true, decide_eq_true_eq] at hw
      rcases hw with ((rfl | rfl) | rfl) | rfl <;> exact absurd h (by decide)
  refine ⟨?_, ?_, ?_, ?_, ?_, ?_, ?_, ?_, ?_, ?_, ?_, hws⟩ <;>
    (intro heq; subst heq; exact absurd h (by decide))

theorem takeWhile_all_append (p : Char → Bool) (l₁ l₂ : List Char)
    (h1 : ∀ x ∈ l₁, p x = true) :
    (l₁ ++ l₂).takeWhile p = l₁ ++ l₂.takeWhile p := by
  induction l₁ with
  | nil => simp
  | cons x l₁ ih =>
    simp only [List.cons_append, List.takeWhile_cons, h1 x (by simp), if_true]
    rw [ih fun y hy => h1 y (by simp [hy])]

theorem takeWhile_head_false (p : Char → Bool) (l : List Char)
    (h : ∀ c, l.head? = some c → p c = false) : l.takeWhile p = [] := by
  cases l with
  | nil => rfl
  | cons c l => simp [List.takeWhile_cons, h c rfl]

theorem dropWhile_all_append (p : Char → Bool) (l₁ l₂ : List Char)
    (h1 : ∀ x ∈ l₁, p x = true) :
    (l₁ ++ l₂).dropWhile p = l₂.dropWhile p := by
  induction l₁ with
  | nil => simp
  | cons x l₁ ih =>
    simp only [List.cons_append, List.dropWhile_cons, h1 x (by simp), if_true]
    exact ih fun y hy => h1 y (by simp [hy])

theorem dropWhile_head_false (p : Char → Bool) (l : List Char)
    (h : ∀ c, l.head? = some c → p c = false) : l.dropWhile p = l := by
  cases l with
  | nil => rfl
  | cons c l => simp [List.dropWhile_cons, h c rfl]

theorem tokNext_number (d : Char) (ds tail : List Char)
    (hd : isDigit d = true) (hds : ∀ c ∈ ds, isDigit c = true)
    (htail : ∀ c, tail.head? = some c → isDigit c = false) :
    tokNext ((d :: ds) ++ tail) = .ok (⟨.number, d :: ds⟩, tail) := by
  obtain ⟨f1, f2, f3, f4, f5, f6, f7, f8, f9, f10, f11, f12⟩ := digit_char_facts d hd
  simp only [List.cons_append, tokNext, skipWhitespace, f12, Bool.false_eq_true,
    if_false, if_neg f1, if_neg f2, if_neg f3, if_neg f4, if_neg f5, if_neg f6,
    if_neg f7]
  rw [if_neg (by simp [f8, f9, f10]), if_neg (by simp [f11]), if_pos hd]
  simp only [List.append_eq]
  rw [takeWhile_all_append isDigit ds tail hds,
    takeWhile_head_false isDigit tail htail,
    dropWhile_all_append isDigit ds tail hds,
    dropWhile_head_false isDigit tail htail]
  simp

theorem format_not_digit (c : Char) (hc : (formatCodeInfo c).isSome = true) :
    isDigit c = false := by
  have hc8 : c = 'b' ∨ c = 'B' ∨ c = 'h' ∨ c = 'H' ∨ c = 'i' ∨ c = 'I' ∨
      c = 'q' ∨ c = 'Q' := by
    unfold formatCodeInfo at hc
    split at hc <;> simp_all
  rcases hc8 with rfl | rfl | rfl | rfl | rfl | rfl | rfl | rfl <;> rfl

theorem groups_head_cond (gs : List FmtGroup) (suffix : List Char)
    (hwf : ∀ g ∈ gs, FmtGroup.WF g) (hsuf : suffix = [] ∨ suffix = [')']) :
    ((gs.map FmtGroup.chars).flatten ++ suffix) = [] ∨
    isAlphanumeric (((gs.map FmtGroup.chars).flatten ++ suffix).headD ' ') = false ∨
    (formatCodeInfo (((gs.map FmtGroup.chars).flatten ++ suffix).headD ' ')).isSome = true ∨
    isDigit (((gs.map FmtGroup.chars).flatten ++ suffix).headD ' ') = true := by
  cases gs with
  | nil =>
    rcases hsuf with rfl | rfl
    · left; rfl
    · right; left; rfl
  | cons g gs =>
    have hg := hwf g (by simp)
    cases hcnt : g.count with
    | nil =>
      right; right; left
      simp [FmtGroup.chars, hcnt, hg.2.2]
    | cons d ds =>
      right; right; right
      have hd : isDigit d = true := hg.1 d (by simp [hcnt])
      simp [FmtGroup.chars, hcnt, hd]

theorem tokNext_groups_ok (gs : List FmtGroup) (suffix : List Char)
    (hwf : ∀ g ∈ gs, FmtGroup.WF g) (hsuf : suffix = [] ∨ suffix = [')']) :
    ∃ t r, tokNext ((gs.map FmtGroup.chars).flatten ++ suffix) = .ok (t, r) := by
  cases gs with
  | nil =>
    rcases hsuf with rfl | rfl
    · exact ⟨⟨.eof, []⟩, [], rfl⟩
    · exact ⟨⟨.rparen, [')']⟩, [], rfl⟩
  | cons g gs =>
    have hg := hwf g (by simp)
    have hwf' : ∀ x ∈ gs, FmtGroup.WF x := fun x hx => hwf x (by simp [hx])
    cases hcnt : g.count with
    | nil =>
      refine ⟨⟨.format, [g.code]⟩, (gs.map FmtGroup.chars).flatten ++ suffix, ?_⟩
      have : (((g :: gs).map FmtGroup.chars).flatten ++ suffix) =
          g.code :: ((gs.map FmtGroup.chars).flatten ++ suffix) := by
        simp [FmtGroup.chars, hcnt]
      rw [this]
      exact tokNext_format_of_cond g.code _ hg.2.2 (groups_head_cond gs suffix hwf' hsuf)
    | cons d ds =>
      refine ⟨⟨.number, d :: ds⟩, g.code :: ((gs.map FmtGroup.chars).flatten ++ suffix), ?_⟩
      have hsh : (((g :: gs).map FmtGroup.chars).flatten ++ suffix) =
          (d :: ds) ++ (g.code :: ((gs.map FmtGroup.chars).flatten ++ suffix)) := by
        simp [FmtGroup.chars, hcnt]
      rw [hsh]
      exact tokNext_number d ds _ (hg.1 d (by simp [hcnt]))
        (fun c hc => hg.1 c (by simp [hcnt, hc]))
        (fun c hc => by
          simp only [List.head?_cons, Option.some.injEq] at hc
          subst hc
          exact format_not_digit _ hg.2.2)



theorem parseFormatLoop_step_fmt (c : Char) (rest0 : List Char) (f : Nat)
    (acc : List FormatCode) :
    parseFormatLoop (f + 1) ⟨rest0, ⟨.format, [c]⟩⟩ acc =
      (do
        let st ← pAdvance ⟨rest0, (⟨.format, [c]⟩ : Token)⟩
        parseFormatLoop f st (acc ++ [⟨c,
          ((formatCodeInfo c).getD (0, false)).1,
          ((formatCodeInfo c).getD (0, false)).2, 1⟩])) := rfl

theorem parseFormatLoop_step_num (d : Char) (ds : List Char) (rest0 : List Char)
    (f : Nat) (acc : List FormatCode) (cv : Nat)
    (hat : atoi (d :: ds) = .ok cv) :
    parseFormatLoop (f + 1) ⟨rest0, ⟨.number, d :: ds⟩⟩ acc =
      (if cv < 1 then .error "count must be at least 1"
       else do
        let st ← pAdvance ⟨rest0, (⟨.number, d :: ds⟩ : Token)⟩
        if st.current.type = .format then do
          let st2 ← pAdvance st
          parseFormatLoop f st2 (acc ++ [⟨st.current.value.headD ' ',
            ((formatCodeInfo (st.current.value.headD ' ')).getD (0, false)).1,
            ((formatCodeInfo (st.current.value.headD ' ')).getD (0, false)).2,
            cv⟩])
        else .error "expected format code after count") := by
  have hraw : parseFormatLoop (f + 1) ⟨rest0, ⟨.number, d :: ds⟩⟩ acc =
      (match atoi (d :: ds) with
       | .error e => .error ("invalid count: " ++ e)
       | .ok c =>
         if c < 1 then .error "count must be at least 1"
         else do
          let st ← pAdvance ⟨rest0, (⟨.number, d :: ds⟩ : Token)⟩
          if st.current.type = .format then do
            let st2 ← pAdvance st
            parseFormatLoop f st2 (acc ++ [⟨st.current.value.headD ' ',
              ((formatCodeInfo (st.current.value.headD ' ')).getD (0, false)).1,
              ((formatCodeInfo (st.current.value.headD ' ')).getD (0, false)).2,
              c⟩])
          else .error "expected format code after count") := rfl
  rw [hraw, hat]

theorem parseFormatLoop_groups :
    ∀ (gs : List FmtGroup), (∀ g ∈ gs, FmtGroup.WF g) →
    ∀ (suffix : List Char), (suffix = [] ∨ suffix = [')']) →
    ∀ (fuel : Nat), gs.length + 1 ≤ fuel →
    ∀ (acc : List FormatCode) (t0 : Token) (r0 : List Char),
      tokNext ((gs.map FmtGroup.chars).flatten ++ suffix) = .ok (t0, r0) →
      parseFormatLoop fuel ⟨r0, t0⟩ acc =
        .ok (acc ++ gs.map FmtGroup.fc,
          ⟨[], if suffix = [] then ⟨.eof, []⟩ else ⟨.rparen, [')']⟩⟩) := by
  intro gs
  induction gs with
  | nil =>
    intro _ suffix hsuf fuel hfuel acc t0 r0 htok
    obtain ⟨f, rfl⟩ : ∃ f, fuel = f + 1 := ⟨fuel - 1, by omega⟩
    rcases hsuf with rfl | rfl
    · rw [show tokNext (((([] : List FmtGroup).map FmtGroup.chars).flatten ++ [])) =
        .ok ((⟨.eof, []⟩ : Token), ([] : List Char)) from rfl] at htok
      simp only [Except.ok.injEq, Prod.mk.injEq] at htok
      obtain ⟨ht, hr⟩ := htok
      subst ht
      subst hr
      simp [parseFormatLoop]
    · rw [show tokNext (((([] : List FmtGroup).map FmtGroup.chars).flatten ++ [')'])) =
        .ok ((⟨.rparen, [')']⟩ : Token), ([] : List Char)) from rfl] at htok
      simp only [Except.ok.injEq, Prod.mk.injEq] at htok
      obtain ⟨ht, hr⟩ := htok
      subst ht
      subst hr
      simp [parseFormatLoop]
  | cons g gs ih =>
    intro hwf suffix hsuf fuel hfuel acc t0 r0 htok
    have hg := hwf g (by simp)
    have hwf' : ∀ x ∈ gs, FmtGroup.WF x := fun x hx => hwf x (by simp [hx])
    obtain ⟨f, rfl⟩ : ∃ f, fuel = f + 1 := ⟨fuel - 1, by omega⟩
    have hf' : gs.length + 1 ≤ f := by
      simp only [List.length_cons] at hfuel
      omega
    obtain ⟨t1, r1, htok1⟩ := tokNext_groups_ok gs suffix hwf' hsuf
    cases hcnt : g.count with
    | nil =>
      have hshape : (((g :: gs).map FmtGroup.chars).flatten ++ suffix) =
          g.code :: ((gs.map FmtGroup.chars).flatten ++ suffix) := by
        simp [FmtGroup.chars, hcnt]
      rw [hshape,
        tokNext_format_of_cond g.code _ hg.2.2 (groups_head_cond gs suffix hwf' hsuf)]
        at htok
      simp only [Except.ok.injEq, Prod.mk.injEq] at htok
      obtain ⟨ht, hr⟩ := htok
      subst ht
      subst hr
      rw [parseFormatLoop_step_fmt]
      rw [show pAdvance ⟨(gs.map FmtGroup.chars).flatten ++ suffix,
            (⟨.format, [g.code]⟩ : Token)⟩ = .ok (⟨r1, t1⟩ : PState) from by
        simp only [pAdvance, htok1, except_bind_ok]]
      simp only [except_bind_ok]
      rw [ih hwf' suffix hsuf f hf' _ t1 r1 htok1]
      simp [FmtGroup.fc, hcnt]
    | cons d ds =>
      have hd : isDigit d = true := hg.1 d (by simp [hcnt])
      have hshape : (((g :: gs).map FmtGroup.chars).flatten ++ suffix) =
          (d :: ds) ++ (g.code :: ((gs.map FmtGroup.chars).flatten ++ suffix)) := by
        simp [FmtGroup.chars, hcnt]
      rw [hshape,
        tokNext_number d ds _ hd (fun c hc => hg.1 c (by simp [hcnt, hc]))
          (fun c hc => by
            simp only [List.head?_cons, Option.some.injEq] at hc
            subst hc
            exact format_not_digit _ hg.2.2)] at htok
      simp only [Except.ok.injEq, Prod.mk.injEq] at htok
      obtain ⟨ht, hr⟩ := htok
      subst ht
      subst hr
      have hboth : 1 ≤ digitsToNat (d :: ds) ∧ digitsToNat (d :: ds) ≤ goMaxInt := by
        have h21 := hg.2.1
        rw [hcnt] at h21
        exact h21 (by simp)
      have hge := hboth.1
      have hat : atoi (d :: ds) = .ok (digitsToNat (d :: ds)) := by
        simp [atoi, hboth.2]
      rw [parseFormatLoop_step_num d ds _ f acc (digitsToNat (d :: ds)) hat,
        if_neg (by omega)]
      rw [show pAdvance ⟨g.code :: ((gs.map FmtGroup.chars).flatten ++ suffix),
            (⟨.number, d :: ds⟩ : Token)⟩ =
          .ok (⟨(gs.map FmtGroup.chars).flatten ++ suffix,
            ⟨.format, [g.code]⟩⟩ : PState) from by
        simp only [pAdvance,
          tokNext_format_of_cond g.code _ hg.2.2 (groups_head_cond gs suffix hwf' hsuf),
          except_bind_ok]]
      simp only [except_bind_ok]
      rw [if_pos trivial]
      rw [show pAdvance ⟨(gs.map FmtGroup.chars).flatten ++ suffix,
            (⟨.format, [g.code]⟩ : Token)⟩ = .ok (⟨r1, t1⟩ : PState) from by
        simp only [pAdvance, htok1, except_bind_ok]]
      simp only [except_bind_ok]
      rw [ih hwf' suffix hsuf f hf' _ t1 r1 htok1]
      simp [FmtGroup.fc, hcnt]

theorem parseFormatExpr_step_order (v : List Char) (rest0 : List Char) (f : Nat) :
    parseFormatExpr (f + 1) ⟨rest0, ⟨.order, v⟩⟩ =
      (do
        let st ← pAdvance ⟨rest0, (⟨.order, v⟩ : Token)⟩
        let x ← parseFormatLoop f st []
        if x.1 = [] then .error "expected format codes"
        else .ok (.format ⟨(if v = ['<'] then .littleEndian
          else if v = ['>'] then .bigEndian else .nativeOrder), x.1⟩, x.2)) := rfl

theorem parseFormatExpr_step_fmt (v : List Char) (rest0 : List Char) (f : Nat) :
    parseFormatExpr (f + 1) ⟨rest0, ⟨.format, v⟩⟩ =
      (do
        let x ← parseFormatLoop f ⟨rest0, ⟨.format, v⟩⟩ []
        if x.1 = [] then .error "expected format codes"
        else .ok (.format ⟨.nativeOrder, x.1⟩, x.2)) := rfl

theorem parseFormatExpr_step_numtok (v : List Char) (rest0 : List Char) (f : Nat) :
    parseFormatExpr (f + 1) ⟨rest0, ⟨.number, v⟩⟩ =
      (do
        let x ← parseFormatLoop f ⟨rest0, ⟨.number, v⟩⟩ []
        if x.1 = [] then .error "expected format codes"
        else .ok (.format ⟨.nativeOrder, x.1⟩, x.2)) := rfl


theorem tokNext_order_char (oc : Char) (body : List Char)
    (h : oc = '<' ∨ oc = '>' ∨ oc = '@') :
    tokNext (oc :: body) = .ok (⟨.order, [oc]⟩, body) := by
  rcases h with rfl | rfl | rfl <;> rfl

theorem groups_length_le (gs : List FmtGroup) :
    gs.length ≤ (gs.map FmtGroup.chars).flatten.length := by
  induction gs with
  | nil => simp
  | cons g gs ih =>
    simp only [List.map_cons, List.flatten_cons, List.length_append, List.length_cons,
      FmtGroup.chars]
    omega

theorem parseFormatExpr_groups (ord : Option Char)
    (hord : ord = none ∨ ord = some '<' ∨ ord = some '>' ∨ ord = some '@')
    (gs : List FmtGroup) (hne : gs ≠ []) (hwf : ∀ g ∈ gs, FmtGroup.WF g)
    (suffix : List Char) (hsuf : suffix = [] ∨ suffix = [')'])
    (fuel : Nat) (hfuel : gs.length + 2 ≤ fuel) (t0 : Token) (r0 : List Char)
    (htok0 : tokNext (ord.toList ++ ((gs.map FmtGroup.chars).flatten ++ suffix)) =
      .ok (t0, r0)) :
    parseFormatExpr fuel ⟨r0, t0⟩ =
      .ok (.format ⟨ordOf ord, gs.map FmtGroup.fc⟩,
        ⟨[], if suffix = [] then ⟨.eof, []⟩ else ⟨.rparen, [')']⟩⟩) := by
  obtain ⟨f, rfl⟩ : ∃ f, fuel = f + 1 := ⟨fuel - 1, by omega⟩
  have hfne : gs.map FmtGroup.fc ≠ [] := by
    cases gs with
    | nil => exact absurd rfl hne
    | cons g gs => simp
  rcases hord with rfl | rfl | rfl | rfl
  · -- no order prefix: the first token is the first group's token
    cases gs with
    | nil => exact absurd rfl hne
    | cons g gs0 =>
      have hg := hwf g (by simp)
      have hwf0 : ∀ x ∈ gs0, FmtGroup.WF x := fun x hx => hwf x (by simp [hx])
      simp only [Option.toList, List.nil_append] at htok0
      have hloop := parseFormatLoop_groups (g :: gs0) hwf suffix hsuf f
        (by simp at hfuel ⊢; omega) [] t0 r0 htok0
      cases hcnt : g.count with
      | nil =>
        have hshape : (((g :: gs0).map FmtGroup.chars).flatten ++ suffix) =
            g.code :: ((gs0.map FmtGroup.chars).flatten ++ suffix) := by
          simp [FmtGroup.chars, hcnt]
        rw [hshape, tokNext_format_of_cond g.code _ hg.2.2
          (groups_head_cond gs0 suffix hwf0 hsuf)] at htok0
        simp only [Except.ok.injEq, Prod.mk.injEq] at htok0
        obtain ⟨ht, hr⟩ := htok0
        subst ht
        subst hr
        rw [parseFormatExpr_step_fmt, hloop]
        simp only [except_bind_ok]
        rw [if_neg (by simpa using hfne)]
        simp [ordOf]
      | cons d ds =>
        have hshape : (((g :: gs0).map FmtGroup.chars).flatten ++ suffix) =
            (d :: ds) ++ (g.code :: ((gs0.map FmtGroup.chars).flatten ++ suffix)) := by
          simp [FmtGroup.chars, hcnt]
        rw [hshape, tokNext_number d ds _ (hg.1 d (by simp [hcnt]))
          (fun c hc => hg.1 c (by simp [hcnt, hc]))
          (fun c hc => by
            simp only [List.head?_cons, Option.some.injEq] at hc
            subst hc
            exact format_not_digit _ hg.2.2)] at htok0
        simp only [Except.ok.injEq, Prod.mk.injEq] at htok0
        obtain ⟨ht, hr⟩ := htok0
        subst ht
        subst hr
        rw [parseFormatExpr_step_numtok, hloop]
        simp only [except_bind_ok]
        rw [if_neg (by simpa using hfne)]
        simp [ordOf]
  all_goals {
    simp only [Option.toList, List.cons_append, List.nil_append] at htok0
    rw [tokNext_order_char _ _ (by simp)] at htok0
    simp only [Except.ok.injEq, Prod.mk.injEq] at htok0
    obtain ⟨ht, hr⟩ := htok0
    subst ht
    subst hr
    obtain ⟨t1, r1, htok1⟩ := tokNext_groups_ok gs suffix hwf hsuf
    rw [parseFormatExpr_step_order]
    rw [show pAdvance ⟨(gs.map FmtGroup.chars).flatten ++ suffix,
        (⟨.order, [(_ : Char)]⟩ : Token)⟩ = .ok (⟨r1, t1⟩ : PState) from by
      simp only [pAdvance, htok1, except_bind_ok]]
    simp only [except_bind_ok]
    rw [parseFormatLoop_groups gs hwf suffix hsuf f (by omega) [] t1 r1 htok1]
    simp only [except_bind_ok]
    rw [if_neg (by simpa using hfne)]
    simp [ordOf]
  }

theorem tokNext_fmtChars_head (ord : Option Char)
    (hord : ord = none ∨ ord = some '<' ∨ ord = some '>' ∨ ord = some '@')
    (gs : List FmtGroup) (hne : gs ≠ []) (hwf : ∀ g ∈ gs, FmtGroup.WF g)
    (suffix : List Char) (hsuf : suffix = [] ∨ suffix = [')']) :
    ∃ t r, tokNext (ord.toList ++ ((gs.map FmtGroup.chars).flatten ++ suffix)) =
        .ok (t, r) ∧ ¬t.type = .ident := by
  rcases hord with rfl | rfl | rfl | rfl
  · simp only [Option.toList, List.nil_append]
    cases gs with
    | nil => exact absurd rfl hne
    | cons g gs0 =>
      have hg := hwf g (by simp)
      have hwf0 : ∀ x ∈ gs0, FmtGroup.WF x := fun x hx => hwf x (by simp [hx])
      cases hcnt : g.count with
      | nil =>
        refine ⟨⟨.format, [g.code]⟩,
          (gs0.map FmtGroup.chars).flatten ++ suffix, ?_, by simp⟩
        rw [show (((g :: gs0).map FmtGroup.chars).flatten ++ suffix) =
            g.code :: ((gs0.map FmtGroup.chars).flatten ++ suffix) from by
          simp [FmtGroup.chars, hcnt]]
        exact tokNext_format_of_cond g.code _ hg.2.2
          (groups_head_cond gs0 suffix hwf0 hsuf)
      | cons d ds =>
        refine ⟨⟨.number, d :: ds⟩,
          g.code :: ((gs0.map FmtGroup.chars).flatten ++ suffix), ?_, by simp⟩
        rw [show (((g :: gs0).map FmtGroup.chars).flatten ++ suffix) =
            (d :: ds) ++ (g.code :: ((gs0.map FmtGroup.chars).flatten ++ suffix)) from by
          simp [FmtGroup.chars, hcnt]]
        exact tokNext_number d ds _ (hg.1 d (by simp [hcnt]))
          (fun c hc => hg.1 c (by simp [hcnt, hc]))
          (fun c hc => by
            simp only [List.head?_cons, Option.some.injEq] at hc
            subst hc
            exact format_not_digit _ hg.2.2)
  all_goals {
    simp only [Option.toList, List.cons_append, List.nil_append]
    exact ⟨⟨.order, [_]⟩, (gs.map FmtGroup.chars).flatten ++ suffix,
      tokNext_order_char _ _ (by simp), by simp⟩
  }

theorem parsePrimary_nonident (f : Nat) (st : PState)
    (hnid : ¬st.current.type = .ident) :
    parsePrimary (f + 1) st = parseFormatExpr f st := by
  simp only [parsePrimary]
  rw [if_neg hnid]

theorem parsePipe_of_primary (f : Nat) (st : PState) (node : Node) (stE : PState)
    (hprim : parsePrimary f st = .ok (node, stE))
    (hnp : ¬stE.current.type = .pipe) :
    parsePipe (f + 1) st = .ok (node, stE) := by
  simp only [parsePipe, hprim, except_bind_ok]
  rw [if_neg hnp]

theorem parseExpression_canonical (ord : Option Char)
    (hord : ord = none ∨ ord = some '<' ∨ ord = some '>' ∨ ord = some '@')
    (gs : List FmtGroup) (hne : gs ≠ []) (hwf : ∀ g ∈ gs, FmtGroup.WF g) :
    ParseExpression (String.mk (fmtChars ord gs)) =
      .ok (.format ⟨ordOf ord, gs.map FmtGroup.fc⟩) := by
  have hch : fmtChars ord gs =
      ord.toList ++ ((gs.map FmtGroup.chars).flatten ++ ([] : List Char)) := by
    simp [fmtChars]
  obtain ⟨t0, r0, htok0, hnid⟩ :=
    tokNext_fmtChars_head ord hord gs hne hwf [] (Or.inl rfl)
  have hlen : gs.length ≤ (fmtChars ord gs).length := by
    have h1 := groups_length_le gs
    rw [hch]
    simp only [List.length_append]
    omega
  simp only [ParseExpression]
  rw [show (String.mk (fmtChars ord gs)).toList = fmtChars ord gs from rfl]
  rw [show pAdvance ⟨fmtChars ord gs, (⟨.eof, []⟩ : Token)⟩ =
      .ok (⟨r0, t0⟩ : PState) from by
    simp only [pAdvance]
    rw [hch, htok0]
    simp [except_bind_ok]]
  simp only [except_bind_ok]
  obtain ⟨f1, hf1⟩ : ∃ f1, 2 * (fmtChars ord gs).length + 16 = f1 + 1 :=
    ⟨2 * (fmtChars ord gs).length + 15, by omega⟩
  obtain ⟨f2, hf2⟩ : ∃ f2, f1 = f2 + 1 := ⟨f1 - 1, by omega⟩
  have hprim : parsePrimary f1 ⟨r0, t0⟩ =
      .ok (.format ⟨ordOf ord, gs.map FmtGroup.fc⟩, ⟨[], ⟨.eof, []⟩⟩) := by
    rw [hf2, parsePrimary_nonident f2 _ hnid]
    have := parseFormatExpr_groups ord hord gs hne hwf [] (Or.inl rfl) f2
      (by omega) t0 r0 htok0
    simpa using this
  rw [hf1, parsePipe_of_primary f1 _ _ _ hprim (by simp)]
  simp [except_bind_ok]

theorem parsePrimary_step_ident (v body : List Char) (f : Nat) :
    parsePrimary (f + 1) ⟨'(' :: body, ⟨.ident, v⟩⟩ =
      parseFunctionCall f ⟨'(' :: body, ⟨.ident, v⟩⟩ := rfl

theorem parseFunctionCall_step (v body : List Char) (f : Nat) :
    parseFunctionCall (f + 1) ⟨'(' :: body, ⟨.ident, v⟩⟩ =
      (do
        let st ← pAdvance ⟨body, (⟨.lparen, ['(']⟩ : Token)⟩
        let x ← parseFormatExpr f st
        if x.2.current.type = .rparen then do
          let st2 ← pAdvance x.2
          if v = "parse".toList then .ok (x.1, st2)
          else .error "unknown function"
        else .error "expected close paren after function argument") := rfl

theorem parseExpression_parse_wrapped (ord : Option Char)
    (hord : ord = none ∨ ord = some '<' ∨ ord = some '>' ∨ ord = some '@')
    (gs : List FmtGroup) (hne : gs ≠ []) (hwf : ∀ g ∈ gs, FmtGroup.WF g) :
    ParseExpression (String.mk ("parse(".toList ++ fmtChars ord gs ++ [')'])) =
      .ok (.format ⟨ordOf ord, gs.map FmtGroup.fc⟩) := by
  have hch : fmtChars ord gs ++ [')'] =
      ord.toList ++ ((gs.map FmtGroup.chars).flatten ++ [')']) := by
    simp [fmtChars]
  obtain ⟨t0, r0, htok0, hnid⟩ :=
    tokNext_fmtChars_head ord hord gs hne hwf [')'] (Or.inr rfl)
  have hlen : gs.length ≤ ("parse(".toList ++ fmtChars ord gs ++ [')']).length := by
    have h1 := groups_length_le gs
    have h2 : (fmtChars ord gs).length =
        ord.toList.length + (gs.map FmtGroup.chars).flatten.length := by
      simp [fmtChars]
    simp only [List.length_append, h2]
    omega
  simp only [ParseExpression]
  rw [show (String.mk ("parse(".toList ++ fmtChars ord gs ++ [')'])).toList =
      "parse(".toList ++ fmtChars ord gs ++ [')'] from rfl]
  rw [show pAdvance ⟨"parse(".toList ++ fmtChars ord gs ++ [')'], (⟨.eof, []⟩ : Token)⟩ =
      .ok (⟨'(' :: (fmtChars ord gs ++ [')']),
        ⟨.ident, ['p', 'a', 'r', 's', 'e']⟩⟩ : PState) from rfl]
  simp only [except_bind_ok]
  obtain ⟨f1, hf1⟩ : ∃ f1, 2 * ("parse(".toList ++ fmtChars ord gs ++ [')']).length + 16 =
      f1 + 1 := ⟨_, rfl⟩
  obtain ⟨f2, hf2⟩ : ∃ f2, f1 = f2 + 1 := ⟨f1 - 1, by omega⟩
  obtain ⟨f3, hf3⟩ : ∃ f3, f2 = f3 + 1 := ⟨f2 - 1, by omega⟩
  have hfmt : parseFormatExpr f3 ⟨r0, t0⟩ =
      .ok (.format ⟨ordOf ord, gs.map FmtGroup.fc⟩, ⟨[], ⟨.rparen, [')']⟩⟩) := by
    have := parseFormatExpr_groups ord hord gs hne hwf [')'] (Or.inr rfl) f3
      (by omega) t0 r0 htok0
    simpa using this
  have hprim : parsePrimary f1
      ⟨'(' :: (fmtChars ord gs ++ [')']), ⟨.ident, ['p', 'a', 'r', 's', 'e']⟩⟩ =
      .ok (.format ⟨ordOf ord, gs.map FmtGroup.fc⟩, ⟨[], ⟨.eof, []⟩⟩) := by
    rw [hf2, parsePrimary_step_ident, hf3, parseFunctionCall_step]
    rw [show pAdvance ⟨fmtChars ord gs ++ [')'], (⟨.lparen, ['(']⟩ : Token)⟩ =
        .ok (⟨r0, t0⟩ : PState) from by
      simp only [pAdvance]
      rw [hch, htok0]
      simp [except_bind_ok]]
    simp only [except_bind_ok]
    rw [hfmt]
    simp only [except_bind_ok]
    rw [if_pos (by simp)]
    rw [show pAdvance (⟨[], ⟨.rparen, [')']⟩⟩ : PState) =
        .ok (⟨[], ⟨.eof, []⟩⟩ : PState) from rfl]
    simp only [except_bind_ok]
    rw [if_pos (by decide)]
  rw [hf1, parsePipe_of_primary f1 _ _ _ hprim (by simp)]
  simp [except_bind_ok]

/-- A count whose digits exceed Go's `int` range fails the parse with
`strconv.Atoi`'s range error (src/expr.go:434-437), even though the
digit run lexes as an ordinary `number` token. -/
theorem parseExpression_count_range_error :
    ParseExpression "99999999999999999999999999B" =
      .error "invalid count: value out of range" := rfl

/-- Counterexample for C10 as stated: the string `"b x"` parses as a
format expression (`ParseExpression` ignores trailing tokens), but its
`parse(...)` wrapping fails — the wrapper demands `)` right after the
format codes, so it is not the identity on every string that parses as
a format expression. -/
theorem C10_parse_wrapper_counterexample :
    ParseExpression "b x" = .ok (.format ⟨.nativeOrder, [⟨'b', 1, true, 1⟩]⟩) ∧
    ∃ e, ParseExpression "parse(b x)" = .error e :=
  ⟨rfl, "expected close paren after function argument", rfl⟩

/-- C10 (amended): for every string consisting exactly of a complete
format expression — an optional byte-order prefix followed by one or
more count-prefixed format codes, each count between 1 and Go's
`math.MaxInt64` (so `strconv.Atoi` succeeds), and nothing else —
wrapping it in `parse(...)` yields the very same result as parsing it
directly, and both succeed with the format node built from the prefix
and groups.  (As stated the claim fails for strings with trailing
tokens, see the counterexample; it also fails for counts beyond Go's
`int` range, such as `"99999999999999999999999999B"`, where `Atoi`'s
range error makes both sides fail.) -/
theorem C10_parse_wrapper_amended :
    ∀ (ord : Option Char) (gs : List FmtGroup),
      (ord = none ∨ ord = some '<' ∨ ord = some '>' ∨ ord = some '@') →
      gs ≠ [] → (∀ g ∈ gs, FmtGroup.WF g) →
      ParseExpression (String.mk ("parse(".toList ++ fmtChars ord gs ++ [')'])) =
        ParseExpression (String.mk (fmtChars ord gs)) ∧
      ParseExpression (String.mk (fmtChars ord gs)) =
        .ok (.format ⟨ordOf ord, gs.map FmtGroup.fc⟩) := by
  intro ord gs hord hne hwf
  have hA := parseExpression_canonical ord hord gs hne hwf
  have hB := parseExpression_parse_wrapped ord hord gs hne hwf
  exact ⟨hB.trans hA.symm, hA⟩

/-- Witness for C10 at a concrete input: `parse(<b4H)` parses to the
same AST as `<b4H`. -/
theorem C10_parse_wrapper_amended_witness :
    ParseExpression (String.mk ("parse(".toList ++
        fmtChars (some '<') [⟨[], 'b'⟩, ⟨['4'], 'H'⟩] ++ [')'])) =
      ParseExpression (String.mk (fmtChars (some '<') [⟨[], 'b'⟩, ⟨['4'], 'H'⟩])) ∧
    ParseExpression (String.mk (fmtChars (some '<') [⟨[], 'b'⟩, ⟨['4'], 'H'⟩])) =
      .ok (.format ⟨.littleEndian, [⟨'b', 1, true, 1⟩, ⟨'H', 2, false, 4⟩]⟩) := by
  have h := C10_parse_wrapper_amended (some '<') [⟨[], 'b'⟩, ⟨['4'], 'H'⟩]
    (by simp) (by simp)
    (by
      intro g hg
      simp only [List.mem_cons, List.mem_singleton] at hg
      rcases hg with rfl | rfl | h
      · exact ⟨by simp, by simp, by decide⟩
      · refine ⟨by decide, fun _ => by decide, by decide⟩
      · cases h)
  refine ⟨h.1, h.2.trans ?_⟩
  rfl

end BQ
